import Mathlib

set_option maxRecDepth 8000

/-!
# Verification of the scaffold-based markdown translation transform

A shallow embedding of `src/translator/content.py` (functions
`preprocess_content`, `split_markdown_sections`, `get_anchors`,
`make_scaffold`, `is_in_code_block`, `fill_scaffold`) over `List Char`,
together with theorems settling the specification's claims about it.

Python strings are modelled as `List Char` (one element per code point,
matching Python's indexing).  The character-class primitives (`\s`,
`str.lower`, `str.strip`) are modelled on their ASCII fragment, which is
the fragment the documents under translation exercise; both the embedded
code and the spec-side definitions use the same fragment, so every
comparison between them is unaffected by this choice.

Recursions that consume a computed suffix of the input (splitting,
occurrence counting, the regex scan, template substitution) are written
with an explicit fuel argument so that every definition is structurally
recursive and reduces inside the kernel; each such worker comes with a
fuel-irrelevance lemma and clean step equations, and the public wrapper
always supplies sufficient fuel (`length + 1`).
-/

/-- Python strings, one entry per code point. -/
abbrev Str := List Char

/-- The whitespace class of Python's regex `\s` and of `str.strip()`
(ASCII fragment). -/
def isWs (c : Char) : Bool :=
  c = ' ' || c = '\t' || c = '\n' || c = '\r' || c = '\x0b' || c = '\x0c'

/-- `a`–`z`. -/
def isLowerAZ (c : Char) : Bool := 'a' ≤ c && c ≤ 'z'

/-- `0`–`9`. -/
def isDigitC (c : Char) : Bool := '0' ≤ c && c ≤ '9'

/-- `A`–`Z`. -/
def isUpperAZ (c : Char) : Bool := 'A' ≤ c && c ≤ 'Z'

/-- Python `str.lower()`, ASCII fragment. -/
def pyLowerChar (c : Char) : Char :=
  if isUpperAZ c then Char.ofNat (c.toNat + 32) else c

/-- Python `str.find`: the index of the first occurrence of `needle`,
`none` standing for Python's `-1`. -/
def listFind (needle : Str) : Str → Option Nat
  | [] => if needle = [] then some 0 else none
  | c :: rest =>
    if needle.isPrefixOf (c :: rest) then some 0
    else (listFind needle rest).map (· + 1)

/-- Python `s.replace(old, new, 1)`: replace the first occurrence of
`old`, if any (with `old = ""` Python inserts `new` at position 0). -/
def pyReplaceFirst (s old new : Str) : Str :=
  (listFind old s).elim s (fun i => s.take i ++ new ++ s.drop (i + old.length))

/-- Fueled worker for `pySplit`. -/
def pySplitF (sep : Str) : Nat → Str → List Str
  | 0, s => [s]
  | fuel + 1, s =>
    (listFind sep s).elim [s]
      (fun i => s.take i :: pySplitF sep fuel (s.drop (i + sep.length)))

/-- Python `s.split(sep)` for a nonempty separator: cut at each
occurrence of `sep`, scanning left to right. -/
def pySplit (sep s : Str) : List Str := pySplitF sep (s.length + 1) s

/-- Fueled worker for `countOcc`. -/
def countOccF (pat : Str) : Nat → Str → Nat
  | 0, _ => 0
  | fuel + 1, s =>
    (listFind pat s).elim 0
      (fun i => 1 + countOccF pat fuel (s.drop (i + pat.length)))

/-- Python `s.count(pat)` for a nonempty pattern: number of
non-overlapping occurrences, scanning left to right. -/
def countOcc (pat s : Str) : Nat := countOccF pat (s.length + 1) s

/-- The separator `"\n\n"` on which paragraphs are split. -/
def nn : Str := ['\n', '\n']

/-- The fence marker (three backticks) counted by `is_in_code_block`. -/
def fence3 : Str := ['`', '`', '`']

/-!
## The segmenter: `split_markdown_sections`

`re.split(r"^(#+\s+)(.*)$", markdown, flags=re.MULTILINE)[1:]`.

The pattern matches, at a position that starts the string or follows a
newline, a maximal run of `#` (at least one), then a maximal run of
whitespace (at least one; `\s` may cross newlines), then a maximal run
of non-newline characters (group 2; `$` then always holds in MULTILINE
mode).  `re.split` emits the text between matches and the two capture
groups of every match; the scanner below walks the string carrying the
`^`-flag for the next position (`atStart`) and the pending inter-match
segment (`acc`, reversed).
-/

/-- Fueled worker scanning for heading matches.  `acc` is the reversed
text accumulated since the last match; `atStart` tells whether `^`
matches at the current position. -/
def scanMSF : Nat → Str → Bool → Str → List Str
  | 0, acc, _, s => [acc.reverse ++ s]
  | _ + 1, acc, _, [] => [acc.reverse]
  | fuel + 1, acc, atStart, c :: rest =>
    if atStart && c = '#' then
      let afterH := List.dropWhile (fun x => x == '#') (c :: rest)
      if isWs (afterH.headD 'x') then
        let hs := List.takeWhile (fun x => x == '#') (c :: rest)
        let wsr := List.takeWhile isWs afterH
        let afterW := List.dropWhile isWs afterH
        let title := List.takeWhile (fun x => x != '\n') afterW
        let rest3 := List.dropWhile (fun x => x != '\n') afterW
        acc.reverse :: (hs ++ wsr) :: title :: scanMSF fuel [] false rest3
      else scanMSF fuel (c :: acc) false rest
    else scanMSF fuel (c :: acc) (c = '\n') rest

/-- The full `re.split` result (inter-match segment before the first
match included). -/
def splitFullMS (s : Str) : List Str := scanMSF (s.length + 1) [] true s

/-- `split_markdown_sections` of `content.py`: the `[1:]` slice, i.e.
`[level, title, body, level, title, body, ...]`. -/
def split_markdown_sections (markdown : Str) : List Str :=
  (splitFullMS markdown).drop 1

/-- Fueled worker deciding whether the heading regex matches anywhere,
mirroring the branch structure of `scanMSF`. -/
def hasHeadF : Nat → Bool → Str → Bool
  | 0, _, _ => false
  | _ + 1, _, [] => false
  | fuel + 1, atStart, c :: rest =>
    if atStart && c = '#' then
      let afterH := List.dropWhile (fun x => x == '#') (c :: rest)
      if isWs (afterH.headD 'x') then true
      else hasHeadF fuel false rest
    else hasHeadF fuel (c = '\n') rest

/-- Whether the markdown contains a heading line (a match of
`^(#+\s+)(.*)$` in MULTILINE mode). -/
def hasHeading (s : Str) : Bool := hasHeadF (s.length + 1) true s

/-!
## Anchor derivation: `get_anchors`

```python
for title in divided[1::3]:
    anchor = re.sub(r"[^a-z0-9\s]+", "", title.lower())
    anchor = re.sub(r"\s{2,}", " ", anchor.strip()).replace(" ", "-")
    anchors.append(f"[[{anchor}]]")
```
-/

/-- Python `str.strip()` from the right. -/
def rstripWs : Str → Str
  | [] => []
  | c :: cs =>
    let r := rstripWs cs
    if r = [] then (if isWs c then [] else [c]) else c :: r

/-- Python `str.strip()`: drop whitespace from both ends. -/
def pyStrip (s : Str) : Str := rstripWs (List.dropWhile isWs s)

/-- Fueled worker for `collapseRuns`. -/
def collapseRunsF : Nat → Str → Str
  | 0, s => s
  | _ + 1, [] => []
  | fuel + 1, c :: cs =>
    if isWs c && isWs (cs.headD 'x') then
      ' ' :: collapseRunsF fuel (List.dropWhile isWs cs)
    else c :: collapseRunsF fuel cs

/-- `re.sub(r"\s{2,}", " ", s)`: replace every maximal whitespace run of
length at least 2 by a single space (a lone whitespace char is kept). -/
def collapseRuns (s : Str) : Str := collapseRunsF (s.length + 1) s

/-- `re.sub(r"[^a-z0-9\s]+", "", s)`: delete every character that is not
a lowercase letter, a digit or whitespace. -/
def keepSlugChars (s : Str) : Str :=
  s.filter (fun c => isLowerAZ c || isDigitC c || isWs c)

/-- `.replace(" ", "-")`: every space becomes a hyphen. -/
def spaceToDash (s : Str) : Str :=
  s.map (fun c => if c = ' ' then '-' else c)

/-- The slug computed inside `get_anchors`, exactly in the code's order:
lowercase, delete, strip, collapse runs, replace spaces. -/
def codeSlug (title : Str) : Str :=
  spaceToDash (collapseRuns (pyStrip (keepSlugChars (title.map pyLowerChar))))

/-- The slug as worded by the spec's contract (C5): lowercase the
title, delete every character that is not a lowercase letter, digit, or
whitespace, collapse each run of 2 or more whitespace characters to one
space, trim leading/trailing whitespace, and replace each remaining
space with a hyphen.  (The code strips before collapsing; the spec
collapses before trimming.) -/
def specSlug (title : Str) : Str :=
  spaceToDash (pyStrip (collapseRuns (keepSlugChars (title.map pyLowerChar))))

/-- The anchor `[[slug]]` required by the spec's contract. -/
def specAnchor (title : Str) : Str := ('[' :: '[' :: specSlug title) ++ [']', ']']

/-- Python `divided[1::3]`: the elements at indices 1, 4, 7, …. -/
def sliceT : List α → List α
  | _ :: b :: _ :: rest => b :: sliceT rest
  | _ :: b :: [] => [b]
  | _ => []

/-- `get_anchors` of `content.py`. -/
def get_anchors (divided : List Str) : List Str :=
  (sliceT divided).map (fun title => ('[' :: '[' :: codeSlug title) ++ [']', ']'])

/-!
## The scaffold builder: `make_scaffold`
-/

/-- Decimal digits of `i`, as produced by Python's f-string. -/
def natDigitsF : Nat → Nat → Str
  | 0, _ => []
  | fuel + 1, n =>
    if n < 10 then [Char.ofNat (48 + n)]
    else natDigitsF fuel (n / 10) ++ [Char.ofNat (48 + n % 10)]

/-- Decimal representation of a natural number. -/
def natDigits (n : Nat) : Str := natDigitsF (n + 1) n

/-- The identifier part of the i-th placeholder: `hf_i18n_placeholder{i}`. -/
def phName (i : Nat) : Str := ("hf_i18n_placeholder").toList ++ natDigits i

/-- The i-th placeholder token as inserted into the scaffold:
`$hf_i18n_placeholder{i}`. -/
def phToken (i : Nat) : Str := '$' :: phName i

/-- The substring counted by `scaffold.template.count("$hf_i18n_placeholder")`. -/
def phPat : Str := '$' :: ("hf_i18n_placeholder").toList

/-- The replacement loop of `make_scaffold`:
`for i, text in enumerate(to_translate.split("\n\n")): scaffold = scaffold.replace(text, f"$hf_i18n_placeholder{i}", 1)`. -/
def scaffoldLoop : Nat → Str → List Str → Str
  | _, sc, [] => sc
  | i, sc, p :: ps => scaffoldLoop (i + 1) (pyReplaceFirst sc p (phToken i)) ps

/-- `make_scaffold` of `content.py` (the template's text). -/
def make_scaffold (content to_translate : Str) : Str :=
  scaffoldLoop 0 content (pySplit nn to_translate)

/-!
## `is_in_code_block`
-/

/-- `is_in_code_block` of `content.py`: odd number of triple-backtick
markers before `position`. -/
def is_in_code_block (text : Str) (position : Nat) : Bool :=
  countOcc fence3 (text.take position) % 2 == 1

/-!
## `string.Template.safe_substitute`

The default `Template` pattern recognises, at each `$`: `$$` (escaped),
`$identifier`, `${identifier}`, or an invalid lone `$`; identifiers are
`[_a-zA-Z][_a-zA-Z0-9]*` (ASCII), matched maximally.  `safe_substitute`
replaces known names, leaves unknown names and invalid uses unchanged,
and turns `$$` into `$`.  Replacement text is not rescanned.
-/

/-- First character of a Template identifier. -/
def identStartC (c : Char) : Bool := isUpperAZ c || isLowerAZ c || c = '_'

/-- Later characters of a Template identifier. -/
def identC (c : Char) : Bool := identStartC c || isDigitC c

/-- Association-list lookup used for the substitution mapping. -/
def lookupA (m : List (Str × Str)) (k : Str) : Option Str :=
  match m with
  | [] => none
  | (k', v) :: m' => if k' = k then some v else lookupA m' k

/-- Fueled worker for `safeSubstitute`. -/
def safeSubstituteF (m : List (Str × Str)) : Nat → Str → Str
  | 0, s => s
  | _ + 1, [] => []
  | fuel + 1, c :: rest =>
    if c = '$' then
      if rest = [] then ['$']
      else
        let d := rest.headD ' '
        let r2 := rest.tail
        if d = '$' then '$' :: safeSubstituteF m fuel r2
        else if d = '{' then
          if identStartC (r2.headD ' ') then
            let nm := r2.headD ' ' :: List.takeWhile identC r2.tail
            let afterNm := List.dropWhile identC r2.tail
            if afterNm.headD ' ' = '}' then
              (lookupA m nm).elim
                (('$' :: '{' :: nm) ++ '}' :: safeSubstituteF m fuel afterNm.tail)
                (fun v => v ++ safeSubstituteF m fuel afterNm.tail)
            else '$' :: safeSubstituteF m fuel rest
          else '$' :: safeSubstituteF m fuel rest
        else if identStartC d then
          let nm := d :: List.takeWhile identC r2
          let r3 := List.dropWhile identC r2
          (lookupA m nm).elim
            ('$' :: nm ++ safeSubstituteF m fuel r3)
            (fun v => v ++ safeSubstituteF m fuel r3)
        else '$' :: safeSubstituteF m fuel rest
    else c :: safeSubstituteF m fuel rest

/-- `Template(s).safe_substitute(mapping)`. -/
def safeSubstitute (m : List (Str × Str)) (s : Str) : Str :=
  safeSubstituteF m (s.length + 1) s

/-!
## The reassembler: `fill_scaffold`

The locals of the Python function become named definitions so the
claims can speak about the intermediate stages.
-/

/-- Map with the running index, starting at `i₀` (Python `enumerate`). -/
def enumMap (f : Nat → α → β) : Nat → List α → List β
  | _, [] => []
  | i, a :: as => f i a :: enumMap f (i + 1) as

/-- `"".join(["".join(td[i*3:i*3+3]) for i in range(len(td)//3)])`:
concatenate the list in chunks of three, dropping a trailing partial
chunk. -/
def joinChunks : List Str → Str
  | a :: b :: c :: rest => a ++ b ++ c ++ joinChunks rest
  | _ => []

/-- Lines 112–120 of `content.py`: if the translated header count and
the anchor count disagree, truncate the anchor list (fewer translated
headers) or pad it with empty anchors (more). -/
def reconcileAnchors (anchors : List Str) (k : Nat) : List Str :=
  if k ≠ anchors.length then
    if k < anchors.length then anchors.take k
    else anchors ++ List.replicate (k - anchors.length) []
  else anchors

/-- Lines 148–156 of `content.py`: pad the translated sections with
empty strings, or truncate them, to the placeholder count. -/
def reconcileSections (secs : List Str) (n : Nat) : List Str :=
  if secs.length < n then secs ++ List.replicate (n - secs.length) []
  else if secs.length > n then secs.take n
  else secs

/-- The body of the per-heading loop (lines 122–130): locate the
stripped title in the translated text; outside a code fence, and with an
anchor available at this index, append the anchor to the heading. -/
def fillTitle (translated : Str) (anchors : List Str) (i : Nat) (title : Str) : Str :=
  if i < anchors.length then
    (listFind (pyStrip title) translated).elim title
      (fun pos =>
        if !(is_in_code_block translated pos) then title ++ ' ' :: anchors.getD i []
        else title)
  else title

/-- The condition of the warning print at lines 113–114 (the header
drift diagnostic). -/
def headerDrift (to_translate translated : Str) : Bool :=
  (sliceT (split_markdown_sections translated)).length
    != (get_anchors (split_markdown_sections to_translate)).length

/-- The anchor list actually used, after the reconciliation step. -/
def anchorsUsed (to_translate translated : Str) : List Str :=
  reconcileAnchors (get_anchors (split_markdown_sections to_translate))
    (sliceT (split_markdown_sections translated)).length

/-- `translated_divided` after the annotation loop. -/
def annotatedDivided (to_translate translated : Str) : List Str :=
  enumMap
    (fun j x =>
      if j % 3 = 1 then fillTitle translated (anchorsUsed to_translate translated) (j / 3) x
      else x)
    0 (split_markdown_sections translated)

/-- `reconstructed_translated` (lines 132–136). -/
def reconstructedTranslated (to_translate translated : Str) : Str :=
  joinChunks (annotatedDivided to_translate translated)

/-- `placeholder_count` (line 149). -/
def placeholderCount (content to_translate : Str) : Nat :=
  countOcc phPat (make_scaffold content to_translate)

/-- `translated_sections` after the padding/truncation step. -/
def translatedSections (content to_translate translated : Str) : List Str :=
  reconcileSections (pySplit nn (reconstructedTranslated to_translate translated))
    (placeholderCount content to_translate)

/-- The f-string of line 160. -/
def mismatchMsg (expected got : Nat) : Str :=
  ("Error: Section count mismatch. Expected: ").toList ++ natDigits expected
    ++ (", Got: ").toList ++ natDigits got

/-- The substitution mapping of lines 162–164. -/
def sectionMapping (secs : List Str) : List (Str × Str) :=
  enumMap (fun i t => (phName i, t)) 0 secs

/-- `fill_scaffold` of `content.py`. -/
def fill_scaffold (content to_translate translated : Str) : Str :=
  let secs := translatedSections content to_translate translated
  let n := placeholderCount content to_translate
  if secs.length ≠ n then mismatchMsg n secs.length
  else safeSubstitute (sectionMapping secs) (make_scaffold content to_translate)

/-!
## `preprocess_content`

```python
to_translate = content[content.find("#"):]
to_translate = re.sub(r"\n\n+", "\n\n", to_translate)
```
(`content.find` returning `-1` makes the slice `content[-1:]`, the last
character.)
-/

/-- Fueled worker for `collapseNN`. -/
def collapseNNF : Nat → Str → Str
  | 0, s => s
  | _ + 1, [] => []
  | fuel + 1, c :: cs =>
    if c = '\n' && cs.headD 'x' = '\n' then
      '\n' :: '\n' :: collapseNNF fuel (List.dropWhile (fun x => x == '\n') cs)
    else c :: collapseNNF fuel cs

/-- `re.sub(r"\n\n+", "\n\n", s)`: every maximal newline run of length
at least 2 becomes exactly two newlines. -/
def collapseNN (s : Str) : Str := collapseNNF (s.length + 1) s

/-- `preprocess_content` of `content.py`. -/
def preprocess_content (content : Str) : Str :=
  collapseNN
    ((listFind ['#'] content).elim
      ((content.getLast?).elim [] (fun c => [c]))
      (fun i => content.drop i))

/-!
## Derived view: sections as (level, title, body) triples

The spec's data model reads the flat `[level, title, body, ...]` list as
triples whose level is the number of `#` in the marker.
-/

/-- Group the flat segmenter output into (level, title, body) triples. -/
def toTriples : List Str → List (Nat × Str × Str)
  | m :: t :: b :: rest =>
    ((List.takeWhile (fun c => c == '#') m).length, t, b) :: toTriples rest
  | _ => []

/-- The (level, title, body) sections of a markdown string. -/
def sectionsOf (markdown : Str) : List (Nat × Str × Str) :=
  toTriples (split_markdown_sections markdown)

/-!
## Theorems

Basic facts about the string primitives, then the claims.
-/

-- Basic facts about `listFind`.

theorem listFind_nil_of_ne {needle : Str} (h : needle ≠ []) :
    listFind needle [] = none := by
  simp [listFind, h]

theorem listFind_some_pref {needle s : Str} {i : Nat} :
    listFind needle s = some i → needle <+: s.drop i := by
  induction s generalizing i with
  | nil =>
    intro h
    by_cases hn : needle = ([] : Str)
    · subst hn; simp
    · rw [listFind_nil_of_ne hn] at h; cases h
  | cons c rest ih =>
    intro h
    simp only [listFind] at h
    by_cases hp : needle.isPrefixOf (c :: rest)
    · rw [if_pos hp, Option.some.injEq] at h
      subst h
      simpa using (List.isPrefixOf_iff_prefix.mp hp)
    · rw [if_neg hp, Option.map_eq_some'] at h
      obtain ⟨j, hj, rfl⟩ := h
      simpa [List.drop_succ_cons] using ih hj

theorem listFind_some_le {needle s : Str} {i : Nat} (hne : needle ≠ [])
    (h : listFind needle s = some i) : i + needle.length ≤ s.length := by
  have hp := listFind_some_pref h
  have hlen := hp.length_le
  have hpos : 0 < needle.length := List.length_pos.mpr hne
  simp only [List.length_drop] at hlen
  omega

theorem listFind_some_drop_lt {needle s : Str} {i : Nat} (hne : needle ≠ [])
    (h : listFind needle s = some i) :
    (s.drop (i + needle.length)).length < s.length := by
  have hle := listFind_some_le hne h
  have hpos : 0 < needle.length := List.length_pos.mpr hne
  simp only [List.length_drop]
  omega

-- Fuel irrelevance for the fueled workers, and the clean step equations.

theorem pySplitF_irrel (sep : Str) (hsep : sep ≠ []) :
    ∀ f₁ f₂ s, s.length < f₁ → s.length < f₂ →
      pySplitF sep f₁ s = pySplitF sep f₂ s := by
  intro f₁
  induction f₁ with
  | zero => intro f₂ s h₁ _; exact absurd h₁ (Nat.not_lt_zero _)
  | succ f ih =>
    intro f₂ s h₁ h₂
    cases f₂ with
    | zero => exact absurd h₂ (Nat.not_lt_zero _)
    | succ g =>
      simp only [pySplitF]
      cases hf : listFind sep s with
      | none => rfl
      | some i =>
        have hlt := listFind_some_drop_lt hsep hf
        simp only [Option.elim_some]
        rw [ih g _ (by omega) (by omega)]

theorem pySplit_none {sep s : Str} (h : listFind sep s = none) :
    pySplit sep s = [s] := by
  simp [pySplit, pySplitF, h]

theorem pySplit_some {sep s : Str} {i : Nat} (hsep : sep ≠ [])
    (h : listFind sep s = some i) :
    pySplit sep s = s.take i :: pySplit sep (s.drop (i + sep.length)) := by
  have hlt := listFind_some_drop_lt hsep h
  have hpos : 0 < s.length := by
    rcases s with _ | ⟨c, rest⟩
    · rw [listFind_nil_of_ne hsep] at h; cases h
    · simp
  show pySplitF sep (s.length + 1) s = _
  obtain ⟨m, hm⟩ : ∃ m, s.length = m + 1 := ⟨s.length - 1, by omega⟩
  rw [hm]
  simp only [pySplitF, h, Option.elim_some]
  congr 1
  exact pySplitF_irrel sep hsep (m + 1) ((s.drop (i + sep.length)).length + 1)
    (s.drop (i + sep.length)) (by omega) (by omega)

theorem countOccF_irrel (pat : Str) (hpat : pat ≠ []) :
    ∀ f₁ f₂ s, s.length < f₁ → s.length < f₂ →
      countOccF pat f₁ s = countOccF pat f₂ s := by
  intro f₁
  induction f₁ with
  | zero => intro f₂ s h₁ _; exact absurd h₁ (Nat.not_lt_zero _)
  | succ f ih =>
    intro f₂ s h₁ h₂
    cases f₂ with
    | zero => exact absurd h₂ (Nat.not_lt_zero _)
    | succ g =>
      simp only [countOccF]
      cases hf : listFind pat s with
      | none => rfl
      | some i =>
        have hlt := listFind_some_drop_lt hpat hf
        simp only [Option.elim_some]
        rw [ih g _ (by omega) (by omega)]

theorem countOcc_none {pat s : Str} (h : listFind pat s = none) :
    countOcc pat s = 0 := by
  simp [countOcc, countOccF, h]

theorem countOcc_some {pat s : Str} {i : Nat} (hpat : pat ≠ [])
    (h : listFind pat s = some i) :
    countOcc pat s = 1 + countOcc pat (s.drop (i + pat.length)) := by
  have hlt := listFind_some_drop_lt hpat h
  have hpos : 0 < s.length := by
    rcases s with _ | ⟨c, rest⟩
    · rw [listFind_nil_of_ne hpat] at h; cases h
    · simp
  show countOccF pat (s.length + 1) s = _
  obtain ⟨m, hm⟩ : ∃ m, s.length = m + 1 := ⟨s.length - 1, by omega⟩
  rw [hm]
  simp only [countOccF, h, Option.elim_some]
  congr 1
  exact countOccF_irrel pat hpat (m + 1) ((s.drop (i + pat.length)).length + 1)
    (s.drop (i + pat.length)) (by omega) (by omega)

-- The reconciliation step always equalises the section count.

theorem reconcileSections_length (secs : List Str) (n : Nat) :
    (reconcileSections secs n).length = n := by
  unfold reconcileSections
  by_cases h₁ : secs.length < n
  · simp [h₁, List.length_replicate]
    omega
  · rw [if_neg h₁]
    by_cases h₂ : secs.length > n
    · simp [h₂, List.length_take]
      omega
    · rw [if_neg h₂]
      omega

theorem fill_scaffold_eq_success (content to_translate translated : Str) :
    fill_scaffold content to_translate translated
      = safeSubstitute (sectionMapping (translatedSections content to_translate translated))
          (make_scaffold content to_translate) := by
  unfold fill_scaffold
  rw [if_neg]
  intro h
  exact h (reconcileSections_length _ _)

/-- **C9.**  For every input triple, after the padding/truncation step
the number of reconciled translated sections equals the scaffold's
placeholder count, so the defensive section-count-mismatch branch in
`fill_scaffold` is unreachable: `fill_scaffold` never returns the
"Error: Section count mismatch" string and always returns the
placeholder-substituted document. -/
theorem C9_mismatch_branch_unreachable (content to_translate translated : Str) :
    (translatedSections content to_translate translated).length
        = placeholderCount content to_translate
      ∧ fill_scaffold content to_translate translated
          = safeSubstitute
              (sectionMapping (translatedSections content to_translate translated))
              (make_scaffold content to_translate) :=
  ⟨reconcileSections_length _ _, fill_scaffold_eq_success _ _ _⟩

-- An empty reconstructed stream reconciles to `n` empty sections.

theorem reconcileSections_singleton_empty (n : Nat) :
    reconcileSections [([] : Str)] n = List.replicate n [] := by
  unfold reconcileSections
  match n with
  | 0 => simp
  | 1 => simp
  | n + 2 =>
    have h : ([([] : Str)]).length < n + 2 := by simp
    rw [if_pos h]
    simp [List.length_replicate]
    exact (List.replicate_succ _ _).symm

theorem split_markdown_sections_nil : split_markdown_sections [] = [] := rfl

theorem pySplit_nn_nil : pySplit nn [] = [[]] := rfl

/-- **C2 (amended).**  The reconciliation step always equalises the
counts, so no input reaches the section-count-mismatch failure; in
particular, with empty translated text every placeholder is substituted
by the empty string and a document is returned. -/
theorem C2_amended_empty_translation_succeeds (content to_translate : Str) :
    fill_scaffold content to_translate []
      = safeSubstitute
          (sectionMapping (List.replicate (placeholderCount content to_translate) []))
          (make_scaffold content to_translate) := by
  rw [fill_scaffold_eq_success]
  have h : translatedSections content to_translate []
      = List.replicate (placeholderCount content to_translate) [] := by
    unfold translatedSections reconstructedTranslated annotatedDivided
    rw [split_markdown_sections_nil]
    show reconcileSections (pySplit nn (joinChunks [])) _ = _
    rw [show joinChunks [] = ([] : Str) from rfl, pySplit_nn_nil,
      reconcileSections_singleton_empty]
  rw [h]

/-- **C2 (counterexample).**  The input the claim cites as failing — a
scaffold expecting 4 placeholders combined with empty translated text —
does not fail: `fill_scaffold` returns a document (every placeholder
replaced by the empty string), not the section-count-mismatch error. -/
theorem C2_counterexample :
    placeholderCount ("# A\n\nB\n\n## C\n\nD").toList ("# A\n\nB\n\n## C\n\nD").toList = 4
      ∧ fill_scaffold ("# A\n\nB\n\n## C\n\nD").toList ("# A\n\nB\n\n## C\n\nD").toList []
          = ("\n\n\n\n\n\n").toList
      ∧ (("Error").toList).isPrefixOf
          (fill_scaffold ("# A\n\nB\n\n## C\n\nD").toList ("# A\n\nB\n\n## C\n\nD").toList [])
          = false := by
  refine ⟨by decide, by decide, by decide⟩

/-- **C1 (counterexample).**  For `content = "#a\n\na"` (whose prose
extraction is itself), the second paragraph `"a"` is found *inside* the
first inserted placeholder token, so the replacement corrupts it: the
scaffold contains 1 placeholder token while the extraction has 2
blank-line-delimited paragraphs. -/
theorem C1_counterexample :
    preprocess_content ("#a\n\na").toList = ("#a\n\na").toList
      ∧ (pySplit nn (("#a\n\na").toList)).length = 2
      ∧ countOcc phPat (make_scaffold ("#a\n\na").toList ("#a\n\na").toList) = 1
      ∧ make_scaffold ("#a\n\na").toList ("#a\n\na").toList
          = ("$hf_i18n_pl$hf_i18n_placeholder1ceholder0\n\na").toList := by
  refine ⟨by decide, by decide, by decide, by decide⟩

/-- **C3 (counterexample).**  For `content = "hello"` the prose
extraction is `"o"` (Python's `find` returns `-1`, so the slice keeps
only the last character); identity translation then yields `"hell"`,
not the original document (which has no heading, so the claim's
anchor-appending exception does not apply). -/
theorem C3_counterexample :
    preprocess_content ("hello").toList = ("o").toList
      ∧ fill_scaffold ("hello").toList ("o").toList ("o").toList = ("hell").toList
      ∧ ("hell").toList ≠ ("hello").toList := by
  refine ⟨by decide, by decide, by decide⟩

/-- **C4 (counterexample).**  On the example document the scaffold
contains four placeholder tokens (one per blank-line paragraph of the
extraction, headings included), not the two the claim states. -/
theorem C4_counterexample :
    countOcc phPat
        (make_scaffold ("# Title\n\nHello world.\n\n## Sub\n\nMore text.").toList
          ("# Title\n\nHello world.\n\n## Sub\n\nMore text.").toList) = 4
      ∧ (4 : Nat) ≠ 2 := by
  refine ⟨by decide, by decide⟩

/-- **C4 (amended).**  On the example document: segmentation yields the
two claimed sections, the anchors are `[[title]]` and `[[sub]]`, the
scaffold contains exactly *four* placeholder tokens, and
identity-translated reassembly returns exactly the claimed document. -/
theorem C4_amended_example_scenario :
    preprocess_content ("# Title\n\nHello world.\n\n## Sub\n\nMore text.").toList
        = ("# Title\n\nHello world.\n\n## Sub\n\nMore text.").toList
      ∧ sectionsOf ("# Title\n\nHello world.\n\n## Sub\n\nMore text.").toList
          = [(1, ("Title").toList, ("\n\nHello world.\n\n").toList),
             (2, ("Sub").toList, ("\n\nMore text.").toList)]
      ∧ get_anchors
            (split_markdown_sections ("# Title\n\nHello world.\n\n## Sub\n\nMore text.").toList)
          = [("[[title]]").toList, ("[[sub]]").toList]
      ∧ countOcc phPat
            (make_scaffold ("# Title\n\nHello world.\n\n## Sub\n\nMore text.").toList
              ("# Title\n\nHello world.\n\n## Sub\n\nMore text.").toList) = 4
      ∧ fill_scaffold ("# Title\n\nHello world.\n\n## Sub\n\nMore text.").toList
            ("# Title\n\nHello world.\n\n## Sub\n\nMore text.").toList
            ("# Title\n\nHello world.\n\n## Sub\n\nMore text.").toList
          = ("# Title [[title]]\n\nHello world.\n\n## Sub [[sub]]\n\nMore text.").toList := by
  refine ⟨by decide, by decide, by decide, by decide, by decide⟩

-- When the heading regex matches nowhere, the scan returns everything
-- as a single inter-match segment.

theorem scanMSF_of_no_match :
    ∀ fuel (acc : Str) atStart s, hasHeadF fuel atStart s = false →
      scanMSF fuel acc atStart s = [acc.reverse ++ s] := by
  intro fuel
  induction fuel with
  | zero => intro acc atStart s _; rfl
  | succ f ih =>
    intro acc atStart s h
    cases s with
    | nil => simp [scanMSF]
    | cons c rest =>
      simp only [scanMSF, hasHeadF] at h ⊢
      by_cases hc : (atStart && c = '#') = true
      · rw [if_pos hc] at h ⊢
        by_cases hw :
            isWs ((List.dropWhile (fun x => x == '#') (c :: rest)).headD 'x') = true
        · rw [if_pos hw] at h
          cases h
        · rw [if_neg hw] at h ⊢
          rw [ih _ _ _ h]
          simp
      · rw [if_neg hc] at h ⊢
        rw [ih _ _ _ h]
        simp

theorem split_markdown_sections_of_no_heading {s : Str} (h : hasHeading s = false) :
    split_markdown_sections s = [] := by
  unfold split_markdown_sections splitFullMS
  rw [scanMSF_of_no_match _ _ _ _ h]
  rfl

/-- **C10.**  If the translated text contains no markdown heading line,
the segmenter returns the empty section list, the reconstructed
translated stream is empty, and `fill_scaffold` returns a success
document in which every placeholder of the scaffold is substituted by
the empty string — the entire translation is silently discarded rather
than reported as an error. -/
theorem C10_headingless_translation_discarded (content to_translate translated : Str)
    (h : hasHeading translated = false) :
    split_markdown_sections translated = []
      ∧ reconstructedTranslated to_translate translated = []
      ∧ fill_scaffold content to_translate translated
          = safeSubstitute
              (sectionMapping (List.replicate (placeholderCount content to_translate) []))
              (make_scaffold content to_translate) := by
  have hsplit := split_markdown_sections_of_no_heading h
  have hrec : reconstructedTranslated to_translate translated = [] := by
    unfold reconstructedTranslated annotatedDivided
    rw [hsplit]
    rfl
  refine ⟨hsplit, hrec, ?_⟩
  rw [fill_scaffold_eq_success]
  have hsecs : translatedSections content to_translate translated
      = List.replicate (placeholderCount content to_translate) [] := by
    unfold translatedSections
    rw [hrec, pySplit_nn_nil, reconcileSections_singleton_empty]
  rw [hsecs]

/-- Witness for `C10_headingless_translation_discarded` at a concrete
input: a two-paragraph document and a translation without headings. -/
theorem C10_witness :
    hasHeading ("just some prose, nothing else").toList = false
      ∧ (split_markdown_sections ("just some prose, nothing else").toList = []
          ∧ reconstructedTranslated ("# A\n\nB").toList ("just some prose, nothing else").toList = []
          ∧ fill_scaffold ("# A\n\nB").toList ("# A\n\nB").toList
                ("just some prose, nothing else").toList
              = safeSubstitute
                  (sectionMapping
                    (List.replicate
                      (placeholderCount ("# A\n\nB").toList ("# A\n\nB").toList) []))
                  (make_scaffold ("# A\n\nB").toList ("# A\n\nB").toList)) :=
  ⟨by decide,
   C10_headingless_translation_discarded ("# A\n\nB").toList ("# A\n\nB").toList
     ("just some prose, nothing else").toList (by decide)⟩

/-- **C6.**  When the translated heading count differs from the number
of source-derived anchors, `fill_scaffold` does not fail: the drift
diagnostic condition holds, the anchor list is truncated (fewer
translated headings) or padded with empty anchors (more), and
processing continues to the placeholder-substituted document. -/
theorem C6_header_drift_tolerated (content to_translate translated : Str)
    (h : (sliceT (split_markdown_sections translated)).length
        ≠ (get_anchors (split_markdown_sections to_translate)).length) :
    headerDrift to_translate translated = true
      ∧ ((sliceT (split_markdown_sections translated)).length
            < (get_anchors (split_markdown_sections to_translate)).length →
          anchorsUsed to_translate translated
            = (get_anchors (split_markdown_sections to_translate)).take
                (sliceT (split_markdown_sections translated)).length)
      ∧ ((get_anchors (split_markdown_sections to_translate)).length
            < (sliceT (split_markdown_sections translated)).length →
          anchorsUsed to_translate translated
            = get_anchors (split_markdown_sections to_translate)
              ++ List.replicate
                  ((sliceT (split_markdown_sections translated)).length
                    - (get_anchors (split_markdown_sections to_translate)).length) [])
      ∧ fill_scaffold content to_translate translated
          = safeSubstitute
              (sectionMapping (translatedSections content to_translate translated))
              (make_scaffold content to_translate) := by
  refine ⟨?_, ?_, ?_, fill_scaffold_eq_success _ _ _⟩
  · unfold headerDrift
    simp only [bne_iff_ne, ne_eq]
    exact h
  · intro hlt
    unfold anchorsUsed reconcileAnchors
    rw [if_pos h, if_pos hlt]
  · intro hgt
    unfold anchorsUsed reconcileAnchors
    rw [if_pos h, if_neg (by omega)]

/-- Witness for `C6_header_drift_tolerated`: a source with 3 headings
and a translation with 2 headings completes with the anchors truncated
to 2. -/
theorem C6_witness :
    (sliceT (split_markdown_sections ("# A\n\nx\n\n## B\n\ny").toList)).length
        ≠ (get_anchors
            (split_markdown_sections ("# A\n\nx\n\n## B\n\ny\n\n### C\n\nz").toList)).length
      ∧ (headerDrift ("# A\n\nx\n\n## B\n\ny\n\n### C\n\nz").toList ("# A\n\nx\n\n## B\n\ny").toList
            = true
          ∧ ((sliceT (split_markdown_sections ("# A\n\nx\n\n## B\n\ny").toList)).length
                < (get_anchors
                    (split_markdown_sections
                      ("# A\n\nx\n\n## B\n\ny\n\n### C\n\nz").toList)).length →
              anchorsUsed ("# A\n\nx\n\n## B\n\ny\n\n### C\n\nz").toList
                  ("# A\n\nx\n\n## B\n\ny").toList
                = (get_anchors
                    (split_markdown_sections
                      ("# A\n\nx\n\n## B\n\ny\n\n### C\n\nz").toList)).take
                    (sliceT (split_markdown_sections ("# A\n\nx\n\n## B\n\ny").toList)).length)
          ∧ ((get_anchors
                  (split_markdown_sections
                    ("# A\n\nx\n\n## B\n\ny\n\n### C\n\nz").toList)).length
                < (sliceT (split_markdown_sections ("# A\n\nx\n\n## B\n\ny").toList)).length →
              anchorsUsed ("# A\n\nx\n\n## B\n\ny\n\n### C\n\nz").toList
                  ("# A\n\nx\n\n## B\n\ny").toList
                = get_anchors
                    (split_markdown_sections ("# A\n\nx\n\n## B\n\ny\n\n### C\n\nz").toList)
                  ++ List.replicate
                      ((sliceT (split_markdown_sections ("# A\n\nx\n\n## B\n\ny").toList)).length
                        - (get_anchors
                            (split_markdown_sections
                              ("# A\n\nx\n\n## B\n\ny\n\n### C\n\nz").toList)).length) [])
          ∧ fill_scaffold ("# A\n\nx\n\n## B\n\ny\n\n### C\n\nz").toList
                ("# A\n\nx\n\n## B\n\ny\n\n### C\n\nz").toList ("# A\n\nx\n\n## B\n\ny").toList
              = safeSubstitute
                  (sectionMapping
                    (translatedSections ("# A\n\nx\n\n## B\n\ny\n\n### C\n\nz").toList
                      ("# A\n\nx\n\n## B\n\ny\n\n### C\n\nz").toList
                      ("# A\n\nx\n\n## B\n\ny").toList))
                  (make_scaffold ("# A\n\nx\n\n## B\n\ny\n\n### C\n\nz").toList
                    ("# A\n\nx\n\n## B\n\ny\n\n### C\n\nz").toList)) :=
  ⟨by decide,
   C6_header_drift_tolerated ("# A\n\nx\n\n## B\n\ny\n\n### C\n\nz").toList
     ("# A\n\nx\n\n## B\n\ny\n\n### C\n\nz").toList ("# A\n\nx\n\n## B\n\ny").toList
     (by decide)⟩

/-- **C7.**  For a translated heading whose (stripped) text is located
at some position of the translated full text: if that position lies
inside a fenced code block — an odd number of triple-backtick markers
before it — the heading is left unmodified; if it lies outside a fence
and an anchor exists at this index, the anchor is appended. -/
theorem C7_code_fence_suppression (translated : Str) (anchors : List Str)
    (i : Nat) (title : Str) (pos : Nat)
    (hfind : listFind (pyStrip title) translated = some pos) :
    is_in_code_block translated pos
        = (countOcc fence3 (translated.take pos) % 2 == 1)
      ∧ (is_in_code_block translated pos = true →
          fillTitle translated anchors i title = title)
      ∧ (is_in_code_block translated pos = false → i < anchors.length →
          fillTitle translated anchors i title = title ++ ' ' :: anchors.getD i []) := by
  refine ⟨rfl, ?_, ?_⟩
  · intro hin
    unfold fillTitle
    by_cases hi : i < anchors.length
    · rw [if_pos hi, hfind, Option.elim_some, hin]
      simp
    · rw [if_neg hi]
  · intro hout hi
    unfold fillTitle
    rw [if_pos hi, hfind, Option.elim_some, hout]
    simp

/-- Witness for `C7_code_fence_suppression`: the stripped title `Boo`
is first found inside a code fence of the translated text, so the
heading is left unmodified. -/
theorem C7_witness :
    listFind (pyStrip ("Boo").toList) ("```\n# Boo\n```\n\n## Boo\n\ntext").toList = some 6
      ∧ is_in_code_block ("```\n# Boo\n```\n\n## Boo\n\ntext").toList 6 = true
      ∧ fillTitle ("```\n# Boo\n```\n\n## Boo\n\ntext").toList [("[[boo]]").toList] 0
          ("Boo").toList = ("Boo").toList :=
  ⟨by decide, by decide,
   (C7_code_fence_suppression ("```\n# Boo\n```\n\n## Boo\n\ntext").toList
      [("[[boo]]").toList] 0 ("Boo").toList 6 (by decide)).2.1 (by decide)⟩

-- The scan emits a partition of its input: joining the full `re.split`
-- result gives back the string.

theorem scanMSF_join :
    ∀ fuel (acc : Str) atStart s,
      List.flatten (scanMSF fuel acc atStart s) = acc.reverse ++ s := by
  intro fuel
  induction fuel with
  | zero => intro acc atStart s; simp [scanMSF]
  | succ f ih =>
    intro acc atStart s
    cases s with
    | nil => simp [scanMSF]
    | cons c rest =>
      simp only [scanMSF]
      by_cases hc : (atStart && c = '#') = true
      · rw [if_pos hc]
        by_cases hw :
            isWs ((List.dropWhile (fun x => x == '#') (c :: rest)).headD 'x') = true
        · rw [if_pos hw]
          simp only [List.flatten_cons, ih, List.reverse_nil, List.nil_append]
          simp [List.append_assoc, List.takeWhile_append_dropWhile]
        · rw [if_neg hw, ih]
          simp
      · rw [if_neg hc, ih]
        simp

theorem scanMSF_ne_nil :
    ∀ fuel (acc : Str) atStart s, scanMSF fuel acc atStart s ≠ [] := by
  intro fuel
  induction fuel with
  | zero => intro acc atStart s; simp [scanMSF]
  | succ f ih =>
    intro acc atStart s
    cases s with
    | nil => simp [scanMSF]
    | cons c rest =>
      simp only [scanMSF]
      by_cases hc : (atStart && c = '#') = true
      · rw [if_pos hc]
        by_cases hw :
            isWs ((List.dropWhile (fun x => x == '#') (c :: rest)).headD 'x') = true
        · rw [if_pos hw]; simp
        · rw [if_neg hw]; exact ih _ _ _
      · rw [if_neg hc]; exact ih _ _ _

/-- **C8 (counterexample).**  On the heading-free prose `"x"` the
segmenter returns no sections at all, so concatenating the sections
yields the empty string, not the segmented prose. -/
theorem C8_counterexample :
    split_markdown_sections ("x").toList = []
      ∧ List.flatten (split_markdown_sections ("x").toList) ≠ ("x").toList := by
  refine ⟨by decide, by decide⟩

/-- **C8 (amended).**  Concatenating level, title and body of all
sections reconstructs the segmented prose *minus the text preceding the
first heading* (the dropped head of the full split); prefixing that
dropped text reconstructs the prose exactly. -/
theorem C8_amended_reconstruction (s : Str) :
    (splitFullMS s).headD [] ++ List.flatten (split_markdown_sections s) = s := by
  have hne := scanMSF_ne_nil (s.length + 1) [] true s
  have hjoin := scanMSF_join (s.length + 1) [] true s
  unfold split_markdown_sections
  rcases hfull : splitFullMS s with _ | ⟨a, tl⟩
  · exact absurd hfull hne
  · unfold splitFullMS at hfull
    rw [hfull] at hjoin
    simpa using hjoin

-- Counting argument for C1: every placeholder occurrence starts with a
-- dollar sign, and each replacement step inserts exactly one dollar.

theorem drop_eq_append_of_find {needle s : Str} {i : Nat}
    (h : listFind needle s = some i) :
    s.drop i = needle ++ s.drop (i + needle.length) := by
  obtain ⟨r, hr⟩ := listFind_some_pref h
  have hdrop : (s.drop i).drop needle.length = s.drop (i + needle.length) := by
    rw [List.drop_drop, Nat.add_comm]
  rw [← hdrop, ← hr, List.drop_left]

theorem count_drop_le (a : Char) (s : Str) (i : Nat) :
    (s.drop i).count a ≤ s.count a := by
  conv_rhs => rw [← List.take_append_drop i s]
  rw [List.count_append]
  omega

theorem countOcc_le_count_dollar :
    ∀ n (s : Str), s.length ≤ n → countOcc phPat s ≤ s.count '$' := by
  intro n
  induction n with
  | zero =>
    intro s hs
    have : s = [] := List.length_eq_zero.mp (Nat.le_zero.mp hs)
    subst this
    rw [countOcc_none (listFind_nil_of_ne (by decide))]
    exact Nat.zero_le _
  | succ n ih =>
    intro s hs
    cases hfind : listFind phPat s with
    | none => rw [countOcc_none hfind]; omega
    | some i =>
      have hne : phPat ≠ ([] : Str) := by decide
      rw [countOcc_some hne hfind]
      have hdec := drop_eq_append_of_find hfind
      have hlt := listFind_some_drop_lt hne hfind
      have h1 : countOcc phPat (s.drop (i + phPat.length))
          ≤ (s.drop (i + phPat.length)).count '$' := by
        apply ih
        omega
      have h2 : (s.drop i).count '$'
          = 1 + (s.drop (i + phPat.length)).count '$' := by
        rw [hdec, List.count_append]
        have : (phPat.count '$') = 1 := by decide
        omega
      have h3 : (s.drop i).count '$' ≤ s.count '$' := count_drop_le _ _ _
      omega

theorem count_pyReplaceFirst_le {s old new : Str} (hold : old.count '$' = 0) :
    (pyReplaceFirst s old new).count '$' ≤ s.count '$' + new.count '$' := by
  unfold pyReplaceFirst
  cases hfind : listFind old s with
  | none => simp
  | some i =>
    simp only [Option.elim_some, List.count_append]
    have hdec := drop_eq_append_of_find hfind
    have hs : s.count '$' = (s.take i).count '$' + (s.drop (i + old.length)).count '$' := by
      conv_lhs => rw [← List.take_append_drop i s]
      rw [List.count_append, hdec, List.count_append, hold]
      omega
    omega

theorem count_phToken (i : Nat) : (phToken i).count '$' = 1 := by
  unfold phToken phName
  have hd : ∀ fuel n, (natDigitsF fuel n).count '$' = 0 := by
    intro fuel
    induction fuel with
    | zero => intro n; rfl
    | succ f ihf =>
      intro n
      unfold natDigitsF
      by_cases hn : n < 10
      · rw [if_pos hn]
        have h10 := hn
        interval_cases n <;> decide
      · rw [if_neg hn, List.count_append, ihf]
        have hm : n % 10 < 10 := Nat.mod_lt _ (by omega)
        have : (List.count '$' [Char.ofNat (48 + n % 10)]) = 0 := by
          generalize n % 10 = k at hm
          interval_cases k <;> decide
        omega
  have hnd : (natDigits i).count '$' = 0 := hd (i + 1) i
  simp only [List.count_cons, List.count_append]
  rw [hnd]
  decide

theorem scaffoldLoop_count_le :
    ∀ (ps : List Str) (i : Nat) (sc : Str), (∀ p ∈ ps, p.count '$' = 0) →
      (scaffoldLoop i sc ps).count '$' ≤ sc.count '$' + ps.length := by
  intro ps
  induction ps with
  | nil => intro i sc _; simp [scaffoldLoop]
  | cons p ps ih =>
    intro i sc hp
    unfold scaffoldLoop
    have h1 := ih (i + 1) (pyReplaceFirst sc p (phToken i))
      (fun q hq => hp q (List.mem_cons_of_mem _ hq))
    have h2 := @count_pyReplaceFirst_le sc p (phToken i)
      (hp p (List.mem_cons_self _ _))
    rw [count_phToken] at h2
    simp only [List.length_cons]
    omega

theorem mem_of_mem_pySplit {sep t p : Str} (hsep : sep ≠ []) :
    ∀ n, t.length ≤ n → p ∈ pySplit sep t → ∀ c ∈ p, c ∈ t := by
  intro n
  induction n generalizing t with
  | zero =>
    intro ht hp c hc
    have : t = [] := List.length_eq_zero.mp (Nat.le_zero.mp ht)
    subst this
    rw [pySplit_none (listFind_nil_of_ne hsep)] at hp
    simp at hp
    subst hp
    cases hc
  | succ n ih =>
    intro ht hp c hc
    cases hfind : listFind sep t with
    | none =>
      rw [pySplit_none hfind] at hp
      simp at hp
      subst hp
      exact hc
    | some i =>
      rw [pySplit_some hsep hfind] at hp
      rcases List.mem_cons.mp hp with h | h
      · subst h
        exact List.take_subset _ _ hc
      · have hlt := listFind_some_drop_lt hsep hfind
        exact List.drop_subset _ _
          (@ih (t.drop (i + sep.length)) (by omega) h c hc)

/-- **C1 (amended).**  If neither the document nor the prose extraction
contains a dollar character, the scaffold contains *at most* N
placeholder tokens, where N is the number of blank-line-delimited
paragraphs of the extraction (each replacement step inserts exactly one
dollar sign and removes none); exact equality can fail, as
`C1_counterexample` shows. -/
theorem C1_amended_scaffold_count_le (content to_translate : Str)
    (hc : '$' ∉ content) (ht : '$' ∉ to_translate) :
    countOcc phPat (make_scaffold content to_translate)
      ≤ (pySplit nn to_translate).length := by
  have hnn : nn ≠ ([] : Str) := by decide
  have hps : ∀ p ∈ pySplit nn to_translate, p.count '$' = 0 := by
    intro p hp
    rw [List.count_eq_zero]
    intro hmem
    exact ht (mem_of_mem_pySplit hnn to_translate.length (Nat.le_refl _) hp '$' hmem)
  have h1 := scaffoldLoop_count_le (pySplit nn to_translate) 0 content hps
  rw [List.count_eq_zero.mpr hc] at h1
  have h2 := countOcc_le_count_dollar (make_scaffold content to_translate).length
    (make_scaffold content to_translate) (Nat.le_refl _)
  unfold make_scaffold at h2 ⊢
  omega

/-- Witness for `C1_amended_scaffold_count_le` on a dollar-free
two-paragraph document. -/
theorem C1_amended_witness :
    '$' ∉ ("# T\n\nbody").toList
      ∧ countOcc phPat (make_scaffold ("# T\n\nbody").toList ("# T\n\nbody").toList)
          ≤ (pySplit nn ("# T\n\nbody").toList).length :=
  ⟨by decide,
   C1_amended_scaffold_count_le ("# T\n\nbody").toList ("# T\n\nbody").toList
     (by decide) (by decide)⟩

-- The C5 refinement: stripping before collapsing (the code) agrees
-- with collapsing before trimming (the spec's wording).

theorem length_dropWhile_le' (p : Char → Bool) (l : Str) :
    (List.dropWhile p l).length ≤ l.length :=
  (List.dropWhile_sublist p).length_le

theorem collapseRunsF_irrel :
    ∀ f₁ f₂ s, s.length < f₁ → s.length < f₂ →
      collapseRunsF f₁ s = collapseRunsF f₂ s := by
  intro f₁
  induction f₁ with
  | zero => intro f₂ s h₁ _; exact absurd h₁ (Nat.not_lt_zero _)
  | succ f ih =>
    intro f₂ s h₁ h₂
    cases f₂ with
    | zero => exact absurd h₂ (Nat.not_lt_zero _)
    | succ g =>
      cases s with
      | nil => rfl
      | cons c cs =>
        simp only [List.length_cons] at h₁ h₂
        have hlen := length_dropWhile_le' isWs cs
        simp only [collapseRunsF]
        by_cases hrun : (isWs c && isWs (cs.headD 'x')) = true
        · rw [if_pos hrun, if_pos hrun, ih g (List.dropWhile isWs cs) (by omega) (by omega)]
        · rw [if_neg hrun, if_neg hrun, ih g cs (by omega) (by omega)]

theorem collapseRuns_cons_run {c : Char} {cs : Str}
    (h : (isWs c && isWs (cs.headD 'x')) = true) :
    collapseRuns (c :: cs) = ' ' :: collapseRuns (List.dropWhile isWs cs) := by
  show collapseRunsF ((c :: cs).length + 1) (c :: cs) = _
  simp only [collapseRunsF, if_pos h]
  congr 1
  have hlen := length_dropWhile_le' isWs cs
  exact collapseRunsF_irrel (cs.length + 1) ((List.dropWhile isWs cs).length + 1)
    (List.dropWhile isWs cs) (by omega) (by omega)

theorem collapseRuns_cons_other {c : Char} {cs : Str}
    (h : (isWs c && isWs (cs.headD 'x')) = false) :
    collapseRuns (c :: cs) = c :: collapseRuns cs := by
  show collapseRunsF ((c :: cs).length + 1) (c :: cs) = _
  have hne : ¬ ((isWs c && isWs (cs.headD 'x')) = true) := by rw [h]; simp
  simp only [collapseRunsF, if_neg hne]
  rfl

theorem collapseRuns_ne_nil {v : Str} (h : v ≠ []) : collapseRuns v ≠ [] := by
  cases v with
  | nil => exact absurd rfl h
  | cons c cs =>
    by_cases hrun : (isWs c && isWs (cs.headD 'x')) = true
    · rw [collapseRuns_cons_run hrun]; simp
    · rw [collapseRuns_cons_other (by simpa using hrun)]; simp

theorem headD_ws_ne_nil {cs : Str} (h : isWs (cs.headD 'x') = true) : cs ≠ [] := by
  intro hnil
  subst hnil
  simp [isWs] at h

theorem rstripWs_cons (c : Char) (cs : Str) :
    rstripWs (c :: cs)
      = if rstripWs cs = [] then (if isWs c then [] else [c]) else c :: rstripWs cs := rfl

theorem rstripWs_eq_nil_iff {v : Str} :
    rstripWs v = [] ↔ ∀ c ∈ v, isWs c = true := by
  induction v with
  | nil => simp [rstripWs]
  | cons c cs ih =>
    rw [rstripWs_cons]
    by_cases hnil : rstripWs cs = []
    · rw [if_pos hnil]
      by_cases hc : isWs c = true
      · simp only [hc, if_pos rfl]
        constructor
        · intro _ d hd
          rcases List.mem_cons.mp hd with rfl | hd'
          · exact hc
          · exact (ih.mp hnil) d hd'
        · intro _; rfl
      · simp only [if_neg hc]
        constructor
        · intro habs; cases habs
        · intro hall
          exact absurd (hall c (List.mem_cons_self _ _)) hc
    · rw [if_neg hnil]
      constructor
      · intro habs; cases habs
      · intro hall
        exact absurd (ih.mpr (fun d hd => hall d (List.mem_cons_of_mem _ hd))) hnil

theorem rstripWs_cons_ne_nil_eq {d : Char} {cs : Str} (h : rstripWs (d :: cs) ≠ []) :
    ∃ t, rstripWs (d :: cs) = d :: t := by
  rw [rstripWs_cons] at h ⊢
  by_cases hnil : rstripWs cs = []
  · rw [if_pos hnil] at h ⊢
    by_cases hd : isWs d = true
    · rw [if_pos hd] at h; exact absurd rfl h
    · rw [if_neg hd]; exact ⟨[], rfl⟩
  · rw [if_neg hnil]
    exact ⟨rstripWs cs, rfl⟩

theorem rstripWs_cons_ws {d : Char} {cs : Str} (hd : isWs d = true)
    (h : rstripWs (d :: cs) ≠ []) :
    rstripWs (d :: cs) = d :: rstripWs cs ∧ rstripWs cs ≠ [] := by
  rw [rstripWs_cons] at h ⊢
  by_cases hnil : rstripWs cs = []
  · rw [if_pos hnil, if_pos hd] at h
    exact absurd rfl h
  · rw [if_neg hnil]
    exact ⟨rfl, hnil⟩

-- Front-trimming commutes with back-trimming.

theorem dropWhile_rstripWs (x : Str) :
    List.dropWhile isWs (rstripWs x) = rstripWs (List.dropWhile isWs x) := by
  induction x with
  | nil => rfl
  | cons a xs ih =>
    by_cases ha : isWs a = true
    · rw [List.dropWhile_cons_of_pos ha, rstripWs_cons]
      by_cases hnil : rstripWs xs = []
      · rw [if_pos hnil, if_pos ha, ← ih, hnil]
      · rw [if_neg hnil, List.dropWhile_cons_of_pos ha, ih]
    · rw [List.dropWhile_cons_of_neg (by simp [ha])]
      by_cases hnil : rstripWs (a :: xs) = []
      · rw [hnil]
        rfl
      · obtain ⟨t, ht⟩ := rstripWs_cons_ne_nil_eq hnil
        rw [ht, List.dropWhile_cons_of_neg (by simp [ha]), ← ht]

theorem collapse_dropWhile_comm :
    ∀ n (s : Str), s.length ≤ n →
      collapseRuns (List.dropWhile isWs s) = List.dropWhile isWs (collapseRuns s) := by
  intro n
  induction n with
  | zero =>
    intro s hs
    have : s = [] := List.length_eq_zero.mp (Nat.le_zero.mp hs)
    subst this
    rfl
  | succ n ih =>
    intro s hs
    cases s with
    | nil => rfl
    | cons c cs =>
      simp only [List.length_cons] at hs
      by_cases hc : isWs c = true
      · by_cases hcs : isWs (cs.headD 'x') = true
        · rw [collapseRuns_cons_run (by rw [hc, hcs]; rfl),
            List.dropWhile_cons_of_pos hc,
            List.dropWhile_cons_of_pos (show isWs ' ' = true from by decide)]
          have hlen : (List.dropWhile isWs cs).length ≤ n := by
            have := length_dropWhile_le' isWs cs
            omega
          rw [← ih (List.dropWhile isWs cs) hlen, List.dropWhile_idempotent]
        · have hcs' : isWs (cs.headD 'x') = false := by simpa using hcs
          rw [collapseRuns_cons_other (by rw [hcs', Bool.and_false]),
            List.dropWhile_cons_of_pos hc, List.dropWhile_cons_of_pos hc]
          cases cs with
          | nil => rfl
          | cons d cs' =>
            have hd : isWs d = false := by simpa using hcs'
            rw [List.dropWhile_cons_of_neg (by simp [hd]),
              collapseRuns_cons_other (by rw [hd, Bool.false_and]),
              List.dropWhile_cons_of_neg (by simp [hd])]
      · have hc' : isWs c = false := by simpa using hc
        rw [List.dropWhile_cons_of_neg (by simp [hc']),
          collapseRuns_cons_other (by rw [hc', Bool.false_and]),
          List.dropWhile_cons_of_neg (by simp [hc'])]

theorem collapseRuns_nil : collapseRuns [] = [] := rfl

theorem allWs_collapse_iff :
    ∀ n (w : Str), w.length ≤ n →
      ((∀ x ∈ collapseRuns w, isWs x = true) ↔ (∀ x ∈ w, isWs x = true)) := by
  intro n
  induction n with
  | zero =>
    intro w hw
    have : w = [] := List.length_eq_zero.mp (Nat.le_zero.mp hw)
    subst this
    simp [collapseRuns_nil]
  | succ n ih =>
    intro w hw
    cases w with
    | nil => simp [collapseRuns_nil]
    | cons c cs =>
      simp only [List.length_cons] at hw
      by_cases hrun : (isWs c && isWs (cs.headD 'x')) = true
      · have hc : isWs c = true := by
          rcases Bool.and_eq_true_iff.mp hrun with ⟨h1, _⟩
          exact h1
        rw [collapseRuns_cons_run hrun]
        have hlen : (List.dropWhile isWs cs).length ≤ n := by
          have := length_dropWhile_le' isWs cs
          omega
        constructor
        · intro hall x hx
          rcases List.mem_cons.mp hx with rfl | hx'
          · exact hc
          · -- x ∈ cs = takeWhile ++ dropWhile
            have hsplit := List.takeWhile_append_dropWhile isWs cs
            have hx2 : x ∈ List.takeWhile isWs cs ++ List.dropWhile isWs cs := by
              rw [hsplit]; exact hx'
            rcases List.mem_append.mp hx2 with ht | hd
            · exact List.mem_takeWhile_imp ht
            · have hcu : ∀ y ∈ collapseRuns (List.dropWhile isWs cs), isWs y = true :=
                fun y hy => hall y (List.mem_cons_of_mem _ hy)
              exact ((ih _ hlen).mp hcu) x hd
        · intro hall x hx
          rcases List.mem_cons.mp hx with rfl | hx'
          · decide
          · refine ((ih _ hlen).mpr ?_) x hx'
            intro y hy
            exact hall y (List.mem_cons_of_mem _
              ((List.dropWhile_sublist isWs).subset hy))
      · rw [collapseRuns_cons_other (by simpa using hrun)]
        have hlen : cs.length ≤ n := by omega
        constructor
        · intro hall x hx
          rcases List.mem_cons.mp hx with rfl | hx'
          · exact hall x (List.mem_cons_self _ _)
          · exact ((ih _ hlen).mp (fun y hy => hall y (List.mem_cons_of_mem _ hy))) x hx'
        · intro hall x hx
          rcases List.mem_cons.mp hx with rfl | hx'
          · exact hall x (List.mem_cons_self _ _)
          · exact ((ih _ hlen).mpr (fun y hy => hall y (List.mem_cons_of_mem _ hy))) x hx'

theorem rstripWs_collapse_nil_iff (w : Str) :
    rstripWs (collapseRuns w) = [] ↔ rstripWs w = [] := by
  rw [rstripWs_eq_nil_iff, rstripWs_eq_nil_iff]
  exact allWs_collapse_iff w.length w (Nat.le_refl _)

theorem rstripWs_dropWhile_ne_nil {cs : Str} (h : rstripWs cs ≠ []) :
    rstripWs (List.dropWhile isWs cs) ≠ [] := by
  rw [Ne, rstripWs_eq_nil_iff]
  intro hall
  apply h
  rw [rstripWs_eq_nil_iff]
  intro y hy
  have hsplit := List.takeWhile_append_dropWhile isWs cs
  have hy2 : y ∈ List.takeWhile isWs cs ++ List.dropWhile isWs cs := by
    rw [hsplit]; exact hy
  rcases List.mem_append.mp hy2 with h1 | h2
  · exact List.mem_takeWhile_imp h1
  · exact hall y h2

theorem collapse_rstripWs_comm :
    ∀ n (v : Str), v.length ≤ n →
      collapseRuns (rstripWs v) = rstripWs (collapseRuns v) := by
  intro n
  induction n with
  | zero =>
    intro v hv
    have : v = [] := List.length_eq_zero.mp (Nat.le_zero.mp hv)
    subst this
    rfl
  | succ n ih =>
    intro v hv
    cases v with
    | nil => rfl
    | cons c cs =>
      simp only [List.length_cons] at hv
      by_cases hc : isWs c = true
      · by_cases hcs : isWs (cs.headD 'x') = true
        · -- a whitespace run of length ≥ 2 starts at `c`
          rw [collapseRuns_cons_run (by rw [hc, hcs]; rfl)]
          by_cases hwnil : rstripWs (c :: cs) = []
          · have hall : ∀ x ∈ c :: cs, isWs x = true := rstripWs_eq_nil_iff.mp hwnil
            have hu : List.dropWhile isWs cs = [] :=
              List.dropWhile_eq_nil_iff.mpr
                (fun x hx => hall x (List.mem_cons_of_mem _ hx))
            rw [hwnil, hu]
            rfl
          · obtain ⟨heq, hcsne⟩ := rstripWs_cons_ws hc hwnil
            rw [heq]
            cases cs with
            | nil => exact absurd rfl (headD_ws_ne_nil hcs)
            | cons d cs' =>
              have hd : isWs d = true := by simpa using hcs
              obtain ⟨heq2, hcs'ne⟩ := rstripWs_cons_ws hd hcsne
              rw [heq2]
              have hne4 : rstripWs (collapseRuns (List.dropWhile isWs cs')) ≠ [] := by
                rw [Ne, rstripWs_collapse_nil_iff]
                exact rstripWs_dropWhile_ne_nil hcs'ne
              have hlen : (List.dropWhile isWs cs').length ≤ n := by
                have := length_dropWhile_le' isWs cs'
                simp only [List.length_cons] at hv
                omega
              rw [collapseRuns_cons_run (by rw [hc]; simp [hd]),
                List.dropWhile_cons_of_pos hd, dropWhile_rstripWs, ih _ hlen,
                List.dropWhile_cons_of_pos hd, rstripWs_cons, if_neg hne4]
        · -- `c` is a lone whitespace character
          have hcs' : isWs (cs.headD 'x') = false := by simpa using hcs
          rw [collapseRuns_cons_other (by rw [hcs', Bool.and_false])]
          cases cs with
          | nil =>
            have h1 : rstripWs [c] = [] := by
              rw [rstripWs_cons, show rstripWs ([] : Str) = [] from rfl]
              simp [hc]
            rw [show collapseRuns ([] : Str) = [] from rfl, h1]
            rfl
          | cons d cs' =>
            have hd : isWs d = false := by simpa using hcs'
            have hne : rstripWs (d :: cs') ≠ [] := by
              rw [Ne, rstripWs_eq_nil_iff]
              intro hall
              exact absurd (hall d (List.mem_cons_self _ _)) (by simp [hd])
            obtain ⟨t, ht⟩ := rstripWs_cons_ne_nil_eq hne
            have hv1 : rstripWs (c :: d :: cs') = c :: rstripWs (d :: cs') := by
              rw [rstripWs_cons, if_neg hne]
            rw [hv1, ht, collapseRuns_cons_other (by simp [hd]), ← ht,
              ih (d :: cs') (by omega)]
            have hcol : collapseRuns (d :: cs') = d :: collapseRuns cs' :=
              collapseRuns_cons_other (by rw [hd, Bool.false_and])
            have hne2 : rstripWs (collapseRuns (d :: cs')) ≠ [] := by
              rw [hcol, Ne, rstripWs_eq_nil_iff]
              intro hall
              exact absurd (hall d (List.mem_cons_self _ _)) (by simp [hd])
            rw [rstripWs_cons, if_neg hne2]
      · -- `c` is not whitespace
        have hc' : isWs c = false := by simpa using hc
        rw [collapseRuns_cons_other (by rw [hc', Bool.false_and])]
        by_cases hnil : rstripWs cs = []
        · have h1 : rstripWs (c :: cs) = [c] := by
            rw [rstripWs_cons, if_pos hnil, if_neg hc]
          have hall : ∀ x ∈ cs, isWs x = true := rstripWs_eq_nil_iff.mp hnil
          have h2 : rstripWs (collapseRuns cs) = [] := by
            rw [rstripWs_collapse_nil_iff, rstripWs_eq_nil_iff]
            exact hall
          rw [h1, rstripWs_cons, if_pos h2, if_neg hc,
            collapseRuns_cons_other (by simp [hc'])]
          rfl
        · have h1 : rstripWs (c :: cs) = c :: rstripWs cs := by
            rw [rstripWs_cons, if_neg hnil]
          have h2 : rstripWs (collapseRuns cs) ≠ [] := by
            rw [Ne, rstripWs_collapse_nil_iff]
            exact hnil
          rw [h1, collapseRuns_cons_other (by rw [hc', Bool.false_and]),
            ih cs (by omega), rstripWs_cons, if_neg h2]

theorem pyStrip_collapseRuns (u : Str) :
    pyStrip (collapseRuns u) = collapseRuns (pyStrip u) := by
  unfold pyStrip
  rw [← collapse_dropWhile_comm u.length u (Nat.le_refl _),
    collapse_rstripWs_comm (List.dropWhile isWs u).length _ (Nat.le_refl _)]

theorem codeSlug_eq_specSlug (title : Str) : codeSlug title = specSlug title := by
  unfold codeSlug specSlug
  rw [pyStrip_collapseRuns]

/-- **C5.**  For every heading title, the anchor produced by
`get_anchors` is `[[slug]]` with the slug computed by exactly the
spec's steps — lowercase, delete every character that is not a
lowercase letter, digit or whitespace, collapse runs of 2+ whitespace
to one space, trim, replace remaining spaces by hyphens — one anchor
per heading, in positional order (the code trims before collapsing,
which agrees with the spec's collapse-then-trim order). -/
theorem C5_anchor_normalization (divided : List Str) :
    get_anchors divided = (sliceT divided).map specAnchor := by
  unfold get_anchors specAnchor
  apply List.map_congr_left
  intro title _
  rw [codeSlug_eq_specSlug]

-- Positioning lemmas for `listFind` on composite strings.

theorem takeWhile_append_all {p : Char → Bool} {X : Str} (Z : Str)
    (hX : ∀ x ∈ X, p x = true) :
    List.takeWhile p (X ++ Z) = X ++ List.takeWhile p Z := by
  induction X with
  | nil => rfl
  | cons a X' ih =>
    rw [List.cons_append, List.takeWhile_cons_of_pos (hX a (List.mem_cons_self _ _)),
      ih (fun x hx => hX x (List.mem_cons_of_mem _ hx)), List.cons_append]

theorem dropWhile_append_all {p : Char → Bool} {X : Str} (Z : Str)
    (hX : ∀ x ∈ X, p x = true) :
    List.dropWhile p (X ++ Z) = List.dropWhile p Z := by
  induction X with
  | nil => rfl
  | cons a X' ih =>
    rw [List.cons_append, List.dropWhile_cons_of_pos (hX a (List.mem_cons_self _ _)),
      ih (fun x hx => hX x (List.mem_cons_of_mem _ hx))]

theorem listFind_of_pref {P s : Str} (h : P.isPrefixOf s = true) :
    listFind P s = some 0 := by
  cases s with
  | nil =>
    have : P = [] := by simpa using (List.isPrefixOf_iff_prefix.mp h)
    simp [listFind, this]
  | cons c rest => simp [listFind, h]

theorem listFind_eq_of {needle s : Str} :
    ∀ {m : Nat}, needle.isPrefixOf (s.drop m) = true →
      (∀ j < m, needle.isPrefixOf (s.drop j) = false) →
      listFind needle s = some m := by
  induction s with
  | nil =>
    intro m hm hlt
    cases m with
    | zero => exact listFind_of_pref hm
    | succ m' =>
      have h0 := hlt 0 (by omega)
      rw [List.drop_nil] at hm h0
      rw [hm] at h0
      cases h0
  | cons c rest ih =>
    intro m hm hlt
    cases m with
    | zero => exact listFind_of_pref hm
    | succ m' =>
      have h0 := hlt 0 (by omega)
      rw [List.drop_zero] at h0
      show listFind needle (c :: rest) = _
      rw [listFind]
      rw [if_neg (by rw [h0]; exact Bool.false_ne_true)]
      have hm' : needle.isPrefixOf (rest.drop m') = true := by
        simpa [List.drop_succ_cons] using hm
      have hlt' : ∀ j < m', needle.isPrefixOf (rest.drop j) = false := by
        intro j hj
        have := hlt (j + 1) (by omega)
        simpa [List.drop_succ_cons] using this
      rw [ih hm' hlt']
      rfl

theorem listFind_sep {sep X Y : Str} (hsep : sep ≠ [])
    (hX : sep.headD ' ' ∉ X) :
    listFind sep (X ++ sep ++ Y) = some X.length := by
  induction X with
  | nil =>
    apply listFind_of_pref
    rw [List.isPrefixOf_iff_prefix]
    exact ⟨Y, by simp⟩
  | cons a X' ih =>
    have hX' : sep.headD ' ' ∉ X' := fun h => hX (List.mem_cons_of_mem _ h)
    have hne : sep.isPrefixOf (a :: (X' ++ sep ++ Y)) = false := by
      cases hs : sep with
      | nil => exact absurd hs hsep
      | cons s0 stail =>
        by_cases hp : (s0 :: stail).isPrefixOf (a :: (X' ++ sep ++ Y)) = true
        · exfalso
          obtain ⟨r, hr⟩ := List.isPrefixOf_iff_prefix.mp hp
          have : s0 = a := by
            have := congrArg (fun l => l.headD ' ') hr
            simpa using this
          apply hX
          rw [hs]
          simp only [List.headD_cons, this]
          exact List.mem_cons_self _ _
        · rw [hs] at hp
          exact Bool.eq_false_iff.mpr hp
    show listFind sep (a :: (X' ++ sep ++ Y)) = _
    rw [listFind, if_neg (by rw [hne]; exact Bool.false_ne_true)]
    have := ih hX'
    rw [show X' ++ sep ++ Y = X' ++ sep ++ Y from rfl] at this
    rw [this]
    rfl

theorem listFind_none_of_head_not_mem {P s : Str} (hP : P ≠ [])
    (h : P.headD ' ' ∉ s) : listFind P s = none := by
  cases hfind : listFind P s with
  | none => rfl
  | some i =>
    exfalso
    have hpref := listFind_some_pref hfind
    cases hp : P with
    | nil => exact hP hp
    | cons p0 ptail =>
      rw [hp] at hpref
      obtain ⟨r, hr⟩ := hpref
      apply h
      rw [hp]
      simp only [List.headD_cons]
      have : p0 ∈ s.drop i := by rw [← hr]; simp
      exact List.drop_subset _ _ this

theorem pySplit_sep {X B : Str} (hX : '\n' ∉ X) (hB : '\n' ∉ B) :
    pySplit nn (X ++ nn ++ B) = [X, B] := by
  have hfind : listFind nn (X ++ nn ++ B) = some X.length :=
    listFind_sep (by decide) (by simpa [nn] using hX)
  rw [pySplit_some (by decide) hfind]
  have htake : (X ++ nn ++ B).take X.length = X := by
    rw [List.append_assoc, List.take_left]
  have hdrop : (X ++ nn ++ B).drop (X.length + nn.length) = B := by
    rw [List.append_assoc, ← List.length_append X nn]
    rw [← List.append_assoc, List.drop_left]
  rw [htake, hdrop, pySplit_none (listFind_none_of_head_not_mem (by decide)
    (by simpa [nn] using hB))]

theorem listFind_tail_occurrence {A B : Str}
    (hchar : ∃ c, c ∈ B ∧ c ∉ A) (hnl : '\n' ∉ B)
    (hsuf : ∀ j, j < A.length → '\n' ∈ A.drop j) :
    listFind B (A ++ B) = some A.length := by
  apply listFind_eq_of
  · rw [List.isPrefixOf_iff_prefix, List.drop_left]
  · intro j hj
    by_contra hpre
    have hptrue : List.isPrefixOf B ((A ++ B).drop j) = true := by
      cases h : List.isPrefixOf B ((A ++ B).drop j) with
      | false => exact absurd h hpre
      | true => rfl
    have hpre' : B <+: (A ++ B).drop j := List.isPrefixOf_iff_prefix.mp hptrue
    have hdropj : (A ++ B).drop j = A.drop j ++ B := List.drop_append_of_le_length (by omega)
    rw [hdropj] at hpre'
    have hU : (A.drop j).length = A.length - j := List.length_drop _ _
    by_cases hlen : B.length ≤ (A.drop j).length
    · -- the supposed occurrence lies entirely inside `A`
      have hBtake : B = (A.drop j ++ B).take B.length := by
        rw [List.prefix_iff_eq_take] at hpre'
        exact hpre'
      rw [List.take_append_eq_append_take] at hBtake
      obtain ⟨c, hcB, hcA⟩ := hchar
      apply hcA
      have hsub : B ⊆ A.drop j := by
        intro x hx
        rw [hBtake] at hx
        rcases List.mem_append.mp hx with h1 | h2
        · exact List.take_subset _ _ h1
        · rw [Nat.sub_eq_zero_of_le hlen] at h2
          simp at h2
      exact List.drop_subset _ _ (hsub hcB)
    · -- the supposed occurrence straddles the end of `A`
      have hBtake : B = (A.drop j ++ B).take B.length := by
        rw [List.prefix_iff_eq_take] at hpre'
        exact hpre'
      rw [List.take_append_eq_append_take,
        List.take_of_length_le (by omega)] at hBtake
      apply hnl
      rw [hBtake]
      exact List.mem_append.mpr (Or.inl (hsuf j hj))

-- The scaffold built for a single-heading document.

theorem make_scaffold_single (T B : Str)
    (hTn : '\n' ∉ T) (hBn : '\n' ∉ B)
    (hBtok : ∃ c, c ∈ B ∧ c ∉ phToken 0) :
    make_scaffold (('#' :: ' ' :: T) ++ nn ++ B) (('#' :: ' ' :: T) ++ nn ++ B)
      = phToken 0 ++ nn ++ phToken 1 := by
  have hXn : '\n' ∉ ('#' :: ' ' :: T) := by
    intro h
    rcases List.mem_cons.mp h with h1 | h2
    · cases h1
    · rcases List.mem_cons.mp h2 with h3 | h4
      · cases h3
      · exact hTn h4
  unfold make_scaffold
  rw [pySplit_sep hXn hBn]
  show scaffoldLoop 1
    (pyReplaceFirst (('#' :: ' ' :: T) ++ nn ++ B) ('#' :: ' ' :: T) (phToken 0)) [B] = _
  have hrep1 : pyReplaceFirst (('#' :: ' ' :: T) ++ nn ++ B) ('#' :: ' ' :: T) (phToken 0)
      = phToken 0 ++ (nn ++ B) := by
    unfold pyReplaceFirst
    rw [listFind_of_pref (by
      rw [List.isPrefixOf_iff_prefix]
      exact ⟨nn ++ B, by simp⟩)]
    simp only [Option.elim_some, List.take_zero, List.nil_append, Nat.zero_add]
    rw [List.append_assoc, List.drop_left]
  rw [hrep1]
  show scaffoldLoop 2 (pyReplaceFirst (phToken 0 ++ (nn ++ B)) B (phToken 1)) [] = _
  have hchar' : ∃ c, c ∈ B ∧ c ∉ phToken 0 ++ nn := by
    obtain ⟨c, hcB, hcT⟩ := hBtok
    refine ⟨c, hcB, ?_⟩
    intro hmem
    rcases List.mem_append.mp hmem with h1 | h2
    · exact hcT h1
    · rcases List.mem_cons.mp h2 with h3 | h4
      · exact hBn (h3 ▸ hcB)
      · rcases List.mem_cons.mp h4 with h5 | h6
        · exact hBn (h5 ▸ hcB)
        · cases h6
  have hfind2 : listFind B ((phToken 0 ++ nn) ++ B) = some (phToken 0 ++ nn).length :=
    listFind_tail_occurrence hchar' hBn (by decide)
  have hrep2 : pyReplaceFirst (phToken 0 ++ (nn ++ B)) B (phToken 1)
      = phToken 0 ++ nn ++ phToken 1 := by
    unfold pyReplaceFirst
    rw [← List.append_assoc, hfind2]
    simp only [Option.elim_some]
    rw [List.take_left]
    have hdropall : ((phToken 0 ++ nn) ++ B).drop ((phToken 0 ++ nn).length + B.length) = [] :=
      List.drop_eq_nil_of_le (by simp [List.length_append]; omega)
    rw [hdropall, List.append_nil]
  rw [hrep2]
  rfl

theorem hasHeadF_false_of_no_nl {s : Str} (h : '\n' ∉ s) :
    ∀ fuel, hasHeadF fuel false s = false := by
  induction s with
  | nil => intro fuel; cases fuel <;> rfl
  | cons c rest ih =>
    intro fuel
    cases fuel with
    | zero => rfl
    | succ f =>
      have hc : c ≠ '\n' := fun hx => h (hx ▸ List.mem_cons_self _ _)
      show hasHeadF (f + 1) false (c :: rest) = false
      simp only [hasHeadF, Bool.false_and, if_neg]
      rw [show (decide (c = '\n')) = false from by simp [hc]]
      exact ih (fun hx => h (List.mem_cons_of_mem _ hx)) f

theorem scan_single (T B : Str) (fuel : Nat)
    (hT0 : T ≠ []) (hTw : isWs (T.headD ' ') = false) (hTn : '\n' ∉ T)
    (hB0 : B ≠ []) (hBh : B.headD ' ' ≠ '#') (hBn : '\n' ∉ B) :
    scanMSF (fuel + 4) [] true (('#' :: ' ' :: T) ++ nn ++ B)
      = [[], ['#', ' '], T, nn ++ B] := by
  obtain ⟨t0, T', rfl⟩ : ∃ t0 T', T = t0 :: T' := by
    cases T with
    | nil => exact absurd rfl hT0
    | cons a b => exact ⟨a, b, rfl⟩
  obtain ⟨b0, B', rfl⟩ : ∃ b0 B', B = b0 :: B' := by
    cases B with
    | nil => exact absurd rfl hB0
    | cons a b => exact ⟨a, b, rfl⟩
  have ht0 : isWs t0 = false := by simpa using hTw
  have hb0h : b0 ≠ '#' := by simpa using hBh
  have hb0n : b0 ≠ '\n' := fun hx => hBn (hx ▸ List.mem_cons_self _ _)
  have hBn' : '\n' ∉ B' := fun hx => hBn (List.mem_cons_of_mem _ hx)
  have hTall : ∀ x ∈ t0 :: T', (x != '\n') = true := by
    intro x hx
    simp only [bne_iff_ne, ne_eq]
    intro hxe
    exact hTn (hxe ▸ hx)
  -- normalise the document into head-exposed form
  have hdoc : ('#' :: ' ' :: (t0 :: T')) ++ nn ++ (b0 :: B')
      = '#' :: (' ' :: ((t0 :: T') ++ ('\n' :: ('\n' :: (b0 :: B'))))) := by
    simp [nn, List.append_assoc]
  rw [hdoc]
  -- step 1: the heading match
  have hafterH : List.dropWhile (fun x => x == '#')
      ('#' :: (' ' :: ((t0 :: T') ++ ('\n' :: ('\n' :: (b0 :: B'))))))
      = ' ' :: ((t0 :: T') ++ ('\n' :: ('\n' :: (b0 :: B')))) := by
    rw [List.dropWhile_cons_of_pos (by decide), List.dropWhile_cons_of_neg (by decide)]
  have hhs : List.takeWhile (fun x => x == '#')
      ('#' :: (' ' :: ((t0 :: T') ++ ('\n' :: ('\n' :: (b0 :: B'))))))
      = ['#'] := by
    rw [List.takeWhile_cons_of_pos (by decide), List.takeWhile_cons_of_neg (by decide)]
  have hwsr : List.takeWhile isWs (' ' :: ((t0 :: T') ++ ('\n' :: ('\n' :: (b0 :: B')))))
      = [' '] := by
    rw [List.takeWhile_cons_of_pos (by decide), List.cons_append,
      List.takeWhile_cons_of_neg (by simp [ht0])]
  have hafterW : List.dropWhile isWs (' ' :: ((t0 :: T') ++ ('\n' :: ('\n' :: (b0 :: B')))))
      = (t0 :: T') ++ ('\n' :: ('\n' :: (b0 :: B'))) := by
    rw [List.dropWhile_cons_of_pos (by decide), List.cons_append,
      List.dropWhile_cons_of_neg (by simp [ht0])]
  have htitle : List.takeWhile (fun x => x != '\n')
      ((t0 :: T') ++ ('\n' :: ('\n' :: (b0 :: B')))) = t0 :: T' := by
    rw [takeWhile_append_all _ hTall, List.takeWhile_cons_of_neg (by decide),
      List.append_nil]
  have hrest3 : List.dropWhile (fun x => x != '\n')
      ((t0 :: T') ++ ('\n' :: ('\n' :: (b0 :: B')))) = '\n' :: ('\n' :: (b0 :: B')) := by
    rw [dropWhile_append_all _ hTall, List.dropWhile_cons_of_neg (by decide)]
  have e1 : scanMSF (fuel + 4) [] true
      ('#' :: (' ' :: ((t0 :: T') ++ ('\n' :: ('\n' :: (b0 :: B'))))))
      = [] :: (['#'] ++ [' ']) :: (t0 :: T')
          :: scanMSF (fuel + 3) [] false ('\n' :: ('\n' :: (b0 :: B'))) := by
    show scanMSF ((fuel + 3) + 1) [] true _ = _
    simp only [scanMSF, List.headD_cons, hafterH, hhs, hwsr, hafterW, htitle, hrest3]
    rw [if_pos (by decide), if_pos (by decide)]
    simp
  rw [e1]
  -- steps 2 and 3: the two newlines (the `atStart` flag is recomputed)
  have e2 : scanMSF (fuel + 3) [] false ('\n' :: ('\n' :: (b0 :: B')))
      = scanMSF (fuel + 2) ['\n'] true ('\n' :: (b0 :: B')) := rfl
  have e3 : scanMSF (fuel + 2) ['\n'] true ('\n' :: (b0 :: B'))
      = scanMSF (fuel + 1) ['\n', '\n'] true (b0 :: B') := rfl
  -- step 4: the first body character (not a heading marker)
  have e4 : scanMSF (fuel + 1) ['\n', '\n'] true (b0 :: B')
      = scanMSF fuel [b0, '\n', '\n'] false B' := by
    show scanMSF (fuel + 1) ['\n', '\n'] true (b0 :: B') = _
    simp only [scanMSF]
    rw [if_neg (by simp [hb0h]), show (decide (b0 = '\n')) = false from by simp [hb0n]]
  -- the rest of the body contains no newline, hence no further match
  have e5 : scanMSF fuel [b0, '\n', '\n'] false B'
      = [['\n', '\n', b0] ++ B'] := by
    rw [scanMSF_of_no_match _ _ _ _ (hasHeadF_false_of_no_nl hBn' fuel)]
    rfl
  rw [e2, e3, e4, e5]
  simp [nn]

theorem split_single (T B : Str)
    (hT0 : T ≠ []) (hTw : isWs (T.headD ' ') = false) (hTn : '\n' ∉ T)
    (hB0 : B ≠ []) (hBh : B.headD ' ' ≠ '#') (hBn : '\n' ∉ B) :
    split_markdown_sections (('#' :: ' ' :: T) ++ nn ++ B)
      = [['#', ' '], T, nn ++ B] := by
  unfold split_markdown_sections splitFullMS
  obtain ⟨f, hf⟩ :
      ∃ f, (('#' :: ' ' :: T) ++ nn ++ B).length + 1 = f + 4 :=
    ⟨(('#' :: ' ' :: T) ++ nn ++ B).length - 3, by
      simp [nn, List.length_append]
      omega⟩
  rw [hf, scan_single T B f hT0 hTw hTn hB0 hBh hBn]
  rfl

-- `collapseNN` leaves a document with exactly one blank line unchanged.

theorem collapseNNF_no_nl {s : Str} (h : '\n' ∉ s) :
    ∀ fuel, collapseNNF fuel s = s := by
  induction s with
  | nil => intro fuel; cases fuel <;> rfl
  | cons c cs ih =>
    intro fuel
    cases fuel with
    | zero => rfl
    | succ f =>
      have hc : c ≠ '\n' := fun hx => h (hx ▸ List.mem_cons_self _ _)
      show collapseNNF (f + 1) (c :: cs) = c :: cs
      simp only [collapseNNF]
      rw [if_neg (by simp [hc])]
      rw [ih (fun hx => h (List.mem_cons_of_mem _ hx)) f]

theorem collapseNNF_sep {B : Str} (hBn : '\n' ∉ B) :
    ∀ (X : Str) fuel, '\n' ∉ X → X.length < fuel →
      collapseNNF fuel (X ++ nn ++ B) = X ++ nn ++ B := by
  intro X
  induction X with
  | nil =>
    intro fuel _ hfuel
    cases fuel with
    | zero => exact absurd hfuel (Nat.not_lt_zero _)
    | succ f =>
      show collapseNNF (f + 1) ('\n' :: ('\n' :: B)) = '\n' :: ('\n' :: B)
      simp only [collapseNNF, List.headD_cons]
      rw [if_pos (by simp)]
      have hdrop : List.dropWhile (fun x => x == '\n') ('\n' :: B) = B := by
        rw [List.dropWhile_cons_of_pos (by decide)]
        cases B with
        | nil => rfl
        | cons b0 B' =>
          exact List.dropWhile_cons_of_neg
            (by simp; exact fun hx => hBn (hx ▸ List.mem_cons_self _ _))
      rw [hdrop, collapseNNF_no_nl hBn f]
  | cons a X' ih =>
    intro fuel hX hfuel
    cases fuel with
    | zero => exact absurd hfuel (Nat.not_lt_zero _)
    | succ f =>
      have ha : a ≠ '\n' := fun hx => hX (hx ▸ List.mem_cons_self _ _)
      show collapseNNF (f + 1) (a :: (X' ++ nn ++ B)) = a :: (X' ++ nn ++ B)
      simp only [collapseNNF]
      rw [if_neg (by simp [ha])]
      rw [ih f (fun hx => hX (List.mem_cons_of_mem _ hx)) (by simp at hfuel; omega)]

theorem collapseNN_sep {X B : Str} (hX : '\n' ∉ X) (hBn : '\n' ∉ B) :
    collapseNN (X ++ nn ++ B) = X ++ nn ++ B := by
  unfold collapseNN
  exact collapseNNF_sep hBn X _ hX (by simp [nn, List.length_append]; omega)

theorem preprocess_single (T B : Str) (hTn : '\n' ∉ T) (hBn : '\n' ∉ B) :
    preprocess_content (('#' :: ' ' :: T) ++ nn ++ B)
      = ('#' :: ' ' :: T) ++ nn ++ B := by
  have hXn : '\n' ∉ ('#' :: ' ' :: T) := by
    intro h
    rcases List.mem_cons.mp h with h1 | h2
    · cases h1
    · rcases List.mem_cons.mp h2 with h3 | h4
      · cases h3
      · exact hTn h4
  unfold preprocess_content
  rw [show (('#' :: ' ' :: T) ++ nn ++ B) = '#' :: ((' ' :: T) ++ nn ++ B) from by simp,
    listFind_of_pref (by rw [List.isPrefixOf_iff_prefix]; exact ⟨_, rfl⟩)]
  simp only [Option.elim_some, List.drop_zero]
  rw [show '#' :: ((' ' :: T) ++ nn ++ B) = (('#' :: ' ' :: T) ++ nn ++ B) from by simp]
  exact collapseNN_sep hXn hBn

-- Locating a stripped title, and the fence test, for the round trip.

theorem rstripWs_pref (v : Str) : rstripWs v <+: v := by
  induction v with
  | nil => exact List.prefix_refl _
  | cons c cs ih =>
    rw [rstripWs_cons]
    by_cases hnil : rstripWs cs = []
    · rw [if_pos hnil]
      by_cases hc : isWs c = true
      · rw [if_pos hc]; exact List.nil_prefix
      · rw [if_neg hc]
        exact ⟨cs, rfl⟩
    · rw [if_neg hnil]
      exact (List.prefix_cons_inj c).mpr ih

theorem pyStrip_isInf (s : Str) : pyStrip s <:+: s :=
  (rstripWs_pref (List.dropWhile isWs s)).isInfix.trans
    (List.dropWhile_suffix isWs).isInfix

theorem listFind_isSome_of_infix {P s : Str} (h : P <:+: s) :
    ∃ i, listFind P s = some i := by
  induction s with
  | nil =>
    have : P = [] := List.eq_nil_of_infix_nil h
    exact ⟨0, by simp [listFind, this]⟩
  | cons c rest ih =>
    rcases List.infix_cons_iff.mp h with hpre | hinf
    · exact ⟨0, listFind_of_pref (List.isPrefixOf_iff_prefix.mpr hpre)⟩
    · obtain ⟨j, hj⟩ := ih hinf
      refine ⟨?_, ?_⟩
      case _ =>
        exact if P.isPrefixOf (c :: rest) then 0 else j + 1
      by_cases hp : P.isPrefixOf (c :: rest)
      · simp only [if_pos hp]
        exact listFind_of_pref (by rw [hp])
      · simp only [if_neg hp]
        show listFind P (c :: rest) = _
        rw [listFind, if_neg hp, hj]
        rfl

theorem is_in_code_block_false_of_no_tick {s : Str} (h : '`' ∉ s) (p : Nat) :
    is_in_code_block s p = false := by
  unfold is_in_code_block
  have hnone : listFind fence3 (s.take p) = none :=
    listFind_none_of_head_not_mem (by decide)
      (fun hx => h (List.take_subset _ _ (by simpa [fence3] using hx)))
  rw [countOcc_none hnone]
  rfl

theorem fillTitle_single {tr T anchor : Str} (htick : '`' ∉ tr)
    (hinf : pyStrip T <:+: tr) :
    fillTitle tr [anchor] 0 T = T ++ ' ' :: anchor := by
  unfold fillTitle
  rw [if_pos (by simp)]
  obtain ⟨p, hp⟩ := listFind_isSome_of_infix hinf
  rw [hp, Option.elim_some, is_in_code_block_false_of_no_tick htick]
  simp

theorem safeSubstituteF_nil (m : List (Str × Str)) :
    ∀ fuel, safeSubstituteF m fuel [] = [] := by
  intro fuel
  cases fuel <;> rfl

theorem safeSub_two_tokens (S0 S1 : Str) :
    safeSubstitute (sectionMapping [S0, S1]) (phToken 0 ++ nn ++ phToken 1)
      = S0 ++ nn ++ S1 := by
  unfold safeSubstitute
  have h45 : (phToken 0 ++ nn ++ phToken 1).length + 1 = 41 + 4 := by decide
  rw [h45]
  rw [show safeSubstituteF (sectionMapping [S0, S1]) (41 + 4) (phToken 0 ++ nn ++ phToken 1)
      = S0 ++ '\n' :: '\n' :: (S1 ++ safeSubstituteF (sectionMapping [S0, S1]) 41 []) from rfl]
  rw [safeSubstituteF_nil]
  simp [nn]

-- The derived anchor contains no newline when the title has none.

theorem mem_collapseRuns {x : Char} :
    ∀ n (v : Str), v.length ≤ n → x ∈ collapseRuns v → x ∈ v ∨ x = ' ' := by
  intro n
  induction n with
  | zero =>
    intro v hv hx
    have : v = [] := List.length_eq_zero.mp (Nat.le_zero.mp hv)
    subst this
    rw [collapseRuns_nil] at hx
    cases hx
  | succ n ih =>
    intro v hv hx
    cases v with
    | nil => rw [collapseRuns_nil] at hx; cases hx
    | cons c cs =>
      simp only [List.length_cons] at hv
      by_cases hrun : (isWs c && isWs (cs.headD 'x')) = true
      · rw [collapseRuns_cons_run hrun] at hx
        rcases List.mem_cons.mp hx with rfl | hx'
        · exact Or.inr rfl
        · have hlen : (List.dropWhile isWs cs).length ≤ n := by
            have := length_dropWhile_le' isWs cs
            omega
          rcases ih _ hlen hx' with h1 | h2
          · exact Or.inl (List.mem_cons_of_mem _
              ((List.dropWhile_sublist isWs).subset h1))
          · exact Or.inr h2
      · rw [collapseRuns_cons_other (by simpa using hrun)] at hx
        rcases List.mem_cons.mp hx with rfl | hx'
        · exact Or.inl (List.mem_cons_self _ _)
        · rcases ih cs (by omega) hx' with h1 | h2
          · exact Or.inl (List.mem_cons_of_mem _ h1)
          · exact Or.inr h2

theorem upper_toNat_bounds {y : Char} (h : isUpperAZ y = true) :
    65 ≤ y.toNat ∧ y.toNat ≤ 90 := by
  unfold isUpperAZ at h
  rcases Bool.and_eq_true_iff.mp h with ⟨h1, h2⟩
  rw [decide_eq_true_eq] at h1 h2
  rw [Char.le_def, UInt32.le_def] at h1 h2
  constructor
  · simpa [Char.toNat, UInt32.toNat] using h1
  · simpa [Char.toNat, UInt32.toNat] using h2

theorem pyLowerChar_ne_nl {y : Char} (hy : y ≠ '\n') : pyLowerChar y ≠ '\n' := by
  unfold pyLowerChar
  by_cases hu : isUpperAZ y = true
  · rw [if_pos hu]
    obtain ⟨h1, h2⟩ := upper_toNat_bounds hu
    have hk1 : 97 ≤ y.toNat + 32 := by omega
    have hk2 : y.toNat + 32 ≤ 122 := by omega
    generalize y.toNat + 32 = k at hk1 hk2
    interval_cases k <;> decide
  · rw [if_neg hu]
    exact hy

theorem no_nl_codeSlug {T : Str} (hTn : '\n' ∉ T) : '\n' ∉ codeSlug T := by
  unfold codeSlug spaceToDash
  intro h
  obtain ⟨c, hc, hceq⟩ := List.mem_map.mp h
  have hc' : c = '\n' := by
    by_cases hsp : c = ' '
    · rw [if_pos hsp] at hceq; cases hceq
    · rw [if_neg hsp] at hceq; exact hceq
  subst hc'
  rcases mem_collapseRuns _ _ (Nat.le_refl _) hc with h1 | h2
  · have h3 : ('\n' : Char) ∈ keepSlugChars (T.map pyLowerChar) :=
      (pyStrip_isInf _).subset h1
    have h4 : ('\n' : Char) ∈ T.map pyLowerChar := List.mem_of_mem_filter h3
    obtain ⟨y, hyT, hyeq⟩ := List.mem_map.mp h4
    exact pyLowerChar_ne_nl (fun hx => hTn (hx ▸ hyT)) hyeq
  · cases h2

/-- **C3 (amended).**  Identity round trip for single-heading documents:
for `content = "# T\n\nB"` with a nonempty title `T` (no newline or
backtick, not starting with whitespace) and a body paragraph `B` (no
newline or backtick, not starting a heading, containing at least one
character that does not occur in the placeholder token), the prose
extraction is `content` itself and `fill_scaffold content extraction
extraction` reproduces the document byte-for-byte except that the
heading receives its appended anchor.  (In general the claim fails:
see the counterexample.) -/
theorem C3_amended_single_heading_roundtrip (T B : Str)
    (hT0 : T ≠ []) (hTw : isWs (T.headD ' ') = false) (hTn : '\n' ∉ T) (hTt : '`' ∉ T)
    (hB0 : B ≠ []) (hBh : B.headD ' ' ≠ '#') (hBn : '\n' ∉ B) (hBt : '`' ∉ B)
    (hBtok : ∃ c, c ∈ B ∧ c ∉ phToken 0) :
    preprocess_content (('#' :: ' ' :: T) ++ nn ++ B) = ('#' :: ' ' :: T) ++ nn ++ B
      ∧ fill_scaffold (('#' :: ' ' :: T) ++ nn ++ B) (('#' :: ' ' :: T) ++ nn ++ B)
          (('#' :: ' ' :: T) ++ nn ++ B)
        = (['#', ' '] ++ (T ++ ' ' :: (('[' :: '[' :: codeSlug T) ++ [']', ']'])))
            ++ nn ++ B := by
  have hsplitC := split_single T B hT0 hTw hTn hB0 hBh hBn
  have hscaffold := make_scaffold_single T B hTn hBn hBtok
  refine ⟨preprocess_single T B hTn hBn, ?_⟩
  have hanchors : anchorsUsed (('#' :: ' ' :: T) ++ nn ++ B) (('#' :: ' ' :: T) ++ nn ++ B)
      = [('[' :: '[' :: codeSlug T) ++ [']', ']']] := by
    unfold anchorsUsed
    rw [hsplitC]
    rfl
  have htick : '`' ∉ ('#' :: ' ' :: (T ++ (nn ++ B))) := by
    intro h
    rcases List.mem_cons.mp h with h1 | h2
    · cases h1
    · rcases List.mem_cons.mp h2 with h3 | h4
      · cases h3
      · rcases List.mem_append.mp h4 with h5 | h6
        · exact hTt h5
        · rcases List.mem_append.mp h6 with h7 | h8
          · rcases List.mem_cons.mp h7 with h9 | h10
            · cases h9
            · rcases List.mem_cons.mp h10 with h11 | h12
              · cases h11
              · cases h12
          · exact hBt h8
  have hTinf : pyStrip T <:+: ('#' :: ' ' :: (T ++ (nn ++ B))) :=
    (pyStrip_isInf T).trans ⟨['#', ' '], nn ++ B, by simp⟩
  have hannot : annotatedDivided (('#' :: ' ' :: T) ++ nn ++ B) (('#' :: ' ' :: T) ++ nn ++ B)
      = [['#', ' '], T ++ ' ' :: (('[' :: '[' :: codeSlug T) ++ [']', ']']), nn ++ B] := by
    unfold annotatedDivided
    rw [hsplitC, hanchors]
    simp only [enumMap]
    norm_num
    exact fillTitle_single htick hTinf
  have hnlanchor : '\n' ∉ T ++ ' ' :: (('[' :: '[' :: codeSlug T) ++ [']', ']']) := by
    intro h
    rcases List.mem_append.mp h with h1 | h2
    · exact hTn h1
    · rcases List.mem_cons.mp h2 with h3 | h4
      · cases h3
      · rcases List.mem_cons.mp h4 with h5 | h6
        · cases h5
        · rcases List.mem_cons.mp h6 with h7 | h8
          · cases h7
          · rcases List.mem_append.mp h8 with h9 | h10
            · exact no_nl_codeSlug hTn h9
            · rcases List.mem_cons.mp h10 with h11 | h12
              · cases h11
              · rcases List.mem_cons.mp h12 with h13 | h14
                · cases h13
                · cases h14
  have hXnl : '\n' ∉ ['#', ' '] ++ (T ++ ' ' :: (('[' :: '[' :: codeSlug T) ++ [']', ']'])) := by
    intro h
    rcases List.mem_append.mp h with h1 | h2
    · rcases List.mem_cons.mp h1 with h3 | h4
      · cases h3
      · rcases List.mem_cons.mp h4 with h5 | h6
        · cases h5
        · cases h6
    · exact hnlanchor h2
  have hcount : placeholderCount (('#' :: ' ' :: T) ++ nn ++ B) (('#' :: ' ' :: T) ++ nn ++ B)
      = 2 := by
    unfold placeholderCount
    rw [hscaffold]
    decide
  have hsecs : translatedSections (('#' :: ' ' :: T) ++ nn ++ B)
      (('#' :: ' ' :: T) ++ nn ++ B) (('#' :: ' ' :: T) ++ nn ++ B)
      = [['#', ' '] ++ (T ++ ' ' :: (('[' :: '[' :: codeSlug T) ++ [']', ']'])), B] := by
    unfold translatedSections reconstructedTranslated
    rw [hannot, hcount]
    have hjoin : joinChunks
        [['#', ' '], T ++ ' ' :: (('[' :: '[' :: codeSlug T) ++ [']', ']']), nn ++ B]
        = (['#', ' '] ++ (T ++ ' ' :: (('[' :: '[' :: codeSlug T) ++ [']', ']'])) ++ nn) ++ B := by
      show (['#', ' '] : Str) ++ (T ++ ' ' :: (('[' :: '[' :: codeSlug T) ++ [']', ']']))
          ++ (nn ++ B) ++ joinChunks [] = _
      simp [List.append_assoc, show joinChunks [] = [] from rfl]
    rw [hjoin, pySplit_sep hXnl hBn]
    unfold reconcileSections
    norm_num
  rw [fill_scaffold_eq_success, hsecs, hscaffold, safeSub_two_tokens]

/-- Witness for `C3_amended_single_heading_roundtrip` on the document
`"# Title\n\nHello world."`. -/
theorem C3_amended_witness :
    ('\n' ∉ ("Title").toList)
      ∧ fill_scaffold (('#' :: ' ' :: ("Title").toList) ++ nn ++ ("Hello world.").toList)
          (('#' :: ' ' :: ("Title").toList) ++ nn ++ ("Hello world.").toList)
          (('#' :: ' ' :: ("Title").toList) ++ nn ++ ("Hello world.").toList)
        = ("# Title [[title]]\n\nHello world.").toList :=
  ⟨by decide,
   ((C3_amended_single_heading_roundtrip ("Title").toList ("Hello world.").toList
       (by decide) (by decide) (by decide) (by decide) (by decide) (by decide)
       (by decide) (by decide) ⟨'H', by decide, by decide⟩).2).trans (by decide)⟩
